import Mathlib

/-!
Verification of the MySQL-to-ClickHouse change-replication core
(`src/Databases/MySQL/MaterializeMySQLSyncThread.cpp`).

The development shallowly embeds the data model and the operations of the
sync thread: source row fields, per-table column buffers with the trailing
sign/version columns, the event translator (`onWriteOrDeleteData`,
`onUpdateData`, `onEvent`), the buffer-set accounting (`Buffers::add`,
`Buffers::commit`), the preflight variable check
(`checkVariableAndGetVersion`), and the read deadline computed by
`synchronization`.  Machine integers are modelled as `Nat`/`Int` with
explicit `% 2^w` where the C++ wraps or truncates.
-/

namespace MaterializeMySQL

/-- A MySQL row field as carried inside a binlog row event
(`DB::Field`).  The numeric constructors record the stored 64-bit value:
`uint v` is a `Field::Types::UInt64` (value `v`, taken mod `2^64`),
`int v` a `Field::Types::Int64`.  Floating-point fields are not modelled
(no verified claim depends on them). -/
inductive Field where
  | uint (v : Nat)
  | int (v : Int)
  | str (s : String)
  | null
deriving DecidableEq

/-- A row image: the `Tuple` stored in one `Field` of `rows_data`. -/
abbrev Row := List Field

/-- The dynamic type of a target buffer column, matching the
`typeid_cast` dispatch in `writeFieldsToColumn`.  Floating-point and
nullable columns are omitted: no verified claim exercises them. -/
inductive ColumnKind where
  | int8
  | int16
  | int32
  | int64
  | uint8
  | uint16
  | uint32
  | uint64
  | string
  | fixedString
deriving DecidableEq

/-- A buffer column: its dynamic type and its cells.  Converted cells are
stored back as `Field` values (`.int` for signed, `.uint` for unsigned,
`.str` for strings). -/
structure Column where
  kind : ColumnKind
  data : List Field
deriving DecidableEq

/-- Reinterpret the low `w` bits of the pattern `pat` as a `w`-bit
two's-complement signed integer (the effect of C++ `static_cast` to a
narrower signed type). -/
def toSigned (w : Nat) (pat : Nat) : Int :=
  if pat % 2 ^ w < 2 ^ (w - 1) then (pat % 2 ^ w : Nat) else (pat % 2 ^ w : Nat) - 2 ^ w

/-- The 64-bit two's-complement storage pattern of a field, as read by
`Field::get<UInt64>()` (a reinterpretation of the union storage).
Reading a string or null field through a numeric `get` is undefined
behaviour in the source; it is modelled as pattern 0, and no theorem
below applies a non-numeric field to a numeric column. -/
def bitsOfField : Field → Nat
  | .uint v => v % 2 ^ 64
  | .int v => (v % (2 ^ 64 : Int)).toNat
  | .str _ => 0
  | .null => 0

/-- The 32-bit two's-complement pattern of a signed value (how an `Int32`
column stores it). -/
def pat32 (i : Int) : Nat := (i % (2 ^ 32 : Int)).toNat

/-- The `ColumnInt32` path of `writeFieldsToColumn` for a
`Field::Types::Int64` field (`/// For MYSQL_TYPE_INT24`):
`const Int32 & num = value.get<Int32>();` truncates the stored 64-bit
pattern to 32 bits; `num & 0x800000` tests bit 23; `num | 0xFF000000`
ORs the pattern with `0xFF000000` (the literal is `unsigned int`, so C++
converts `num` to its unsigned pattern, ORs, and the result is stored
back as a signed 32-bit value). -/
def int32FromSigned64 (v : Int) : Int :=
  let pat : Nat := (v % (2 ^ 64 : Int)).toNat % 2 ^ 32
  if pat.testBit 23 then toSigned 32 (pat ||| 0xFF000000) else toSigned 32 pat

/-- `value.get<const String &>()`; reading a non-string field this way is
undefined behaviour in the source, modelled as `""`. -/
def stringOfField : Field → String
  | .str s => s
  | _ => ""

/-- An error code thrown by the sync thread (`DB::ErrorCodes`).  `OTHER`
stands for any error outside the codes this file distinguishes. -/
inductive ErrorCode where
  | SYNTAX_ERROR
  | LOGICAL_ERROR
  | NOT_IMPLEMENTED
  | ILLEGAL_MYSQL_VARIABLE
  | OTHER
deriving DecidableEq

instance {ε α : Type} [DecidableEq ε] [DecidableEq α] : DecidableEq (Except ε α) := fun
  | .ok a, .ok b =>
    if h : a = b then .isTrue (by rw [h])
    else .isFalse (by intro he; cases he; exact h rfl)
  | .error a, .error b =>
    if h : a = b then .isTrue (by rw [h])
    else .isFalse (by intro he; cases he; exact h rfl)
  | .ok _, .error _ => .isFalse (by intro h; cases h)
  | .error _, .ok _ => .isFalse (by intro h; cases h)

/-- The per-cell conversion applied by `writeFieldsToColumn` when it
inserts the field of one row into a column of the given kind:
* signed 8/16/64 read the 64-bit pattern through `get<UInt64>` and
  `static_cast` it to the narrower signed type;
* unsigned 8/16/32/64 truncate the pattern;
* `ColumnInt32` distinguishes the stored field type: a `UInt64` field is
  truncated to its signed 32-bit reinterpretation, an `Int64` field takes
  the MEDIUMINT sign-extension path, anything else throws
  `LOGICAL_ERROR`;
* string columns copy the string data. -/
def convCell : ColumnKind → Field → Except ErrorCode Field
  | .int8, f => .ok (.int (toSigned 8 (bitsOfField f)))
  | .int16, f => .ok (.int (toSigned 16 (bitsOfField f)))
  | .int64, f => .ok (.int (toSigned 64 (bitsOfField f)))
  | .uint8, f => .ok (.uint (bitsOfField f % 2 ^ 8))
  | .uint16, f => .ok (.uint (bitsOfField f % 2 ^ 16))
  | .uint32, f => .ok (.uint (bitsOfField f % 2 ^ 32))
  | .uint64, f => .ok (.uint (bitsOfField f % 2 ^ 64))
  | .int32, .uint v => .ok (.int (toSigned 32 (v % 2 ^ 32)))
  | .int32, .int v => .ok (.int (int32FromSigned64 v))
  | .int32, _ => .error .LOGICAL_ERROR
  | .string, f => .ok (.str (stringOfField f))
  | .fixedString, f => .ok (.str (stringOfField f))

/-- `mapM` over `Except`, written by explicit matching so proofs can
unfold it structurally. -/
def mapMExcept (f : α → Except ErrorCode β) : List α → Except ErrorCode (List β)
  | [] => .ok []
  | a :: as =>
    match f a with
    | .error e => .error e
    | .ok b =>
      match mapMExcept f as with
      | .error e => .error e
      | .ok bs => .ok (b :: bs)

/-- The rows actually written by `writeFieldsToColumn`'s per-row loop:
a row is written when the mask is empty (`!mask.empty()` fails) or its
mask bit is set (`mask.at(row_index)`). -/
def selectedRows : List Row → List Bool → List Row
  | [], _ => []
  | r :: rs, [] => r :: selectedRows rs []
  | r :: rs, m :: ms => if m then r :: selectedRows rs ms else selectedRows rs ms

/-- `writeFieldsToColumn(column_to, rows_data, column_index, mask)`:
append to the column, for every row the mask lets through, the converted
value of the row's `column_index`-th field.  The C++ mutates the column
in place and can leave partial appends behind a throw; the model returns
the error without the partial state (the sync thread dies on such a
throw, so no claim observes it). -/
def writeFieldsToColumn (col : Column) (rows_data : List Row) (column_index : Nat)
    (mask : List Bool) : Except ErrorCode Column :=
  match mapMExcept (fun r => convCell col.kind (r.getD column_index .null))
      (selectedRows rows_data mask) with
  | .error e => .error e
  | .ok cells => .ok ⟨col.kind, col.data ++ cells⟩

/-- A per-table buffer block: the user columns followed by the two
materialized trailer columns `_sign : Int8` and `_version : UInt64`
(`data.columns() - 2` user columns in the source). -/
structure Block where
  userCols : List Column
  signCol : List Int
  versionCol : List Nat
deriving DecidableEq

/-- `Block::rows()`.  All columns of a buffer grow in lockstep (each
event appends the same number of cells to every column), so the sign
column's length is the block's row count. -/
def Block.rows (b : Block) : Nat := b.signCol.length

/-- Stand-in for `Block::bytes()` (allocated memory of the block, a
memory-layout quantity): the total cell count.  It is only threaded
through the written-bytes accounting, which no verified claim measures. -/
def Block.bytes (b : Block) : Nat :=
  (b.userCols.map (fun c => c.data.length)).sum + b.signCol.length + b.versionCol.length

/-- `fillSignAndVersionColumnsData(data, sign_value, version_value,
fill_size)`: append `fill_size` copies of the sign and of the version to
the two trailer columns. -/
def fillSignAndVersionColumnsData (data : Block) (sign_value : Int) (version_value : Nat)
    (fill_size : Nat) : Block :=
  { data with
    signCol := data.signCol ++ List.replicate fill_size sign_value
    versionCol := data.versionCol ++ List.replicate fill_size version_value }

/-- The `for (size_t column = 0; column < buffer.columns() - 2; ++column)`
loop shared by `onWriteOrDeleteData` and `onUpdateData`: write the rows
into every user column, threading the column index. -/
def writeCols (cols : List Column) (rows_data : List Row) (mask : List Bool)
    (start : Nat) : Except ErrorCode (List Column) :=
  match cols with
  | [] => .ok []
  | c :: cs =>
    match writeFieldsToColumn c rows_data start mask with
    | .error e => .error e
    | .ok c' =>
      match writeCols cs rows_data mask (start + 1) with
      | .error e => .error e
      | .ok cs' => .ok (c' :: cs')

/-- `onWriteOrDeleteData<sign>(rows_data, buffer, version)`: write every
row into every user column (empty mask), then fill sign/version once per
row; returns the new block and `buffer.bytes() - prev_bytes`. -/
def onWriteOrDeleteData (sign : Int) (rows_data : List Row) (buffer : Block)
    (version : Nat) : Except ErrorCode (Block × Nat) :=
  let prev_bytes := buffer.bytes
  match writeCols buffer.userCols rows_data [] 0 with
  | .error e => .error e
  | .ok cols' =>
    let b' := fillSignAndVersionColumnsData ⟨cols', buffer.signCol, buffer.versionCol⟩
        sign version rows_data.length
    .ok (b', b'.bytes - prev_bytes)

/-- `differenceSortingKeys(row_old_data, row_new_data,
sorting_columns_index)`: some sorting-key column differs between the two
images. -/
def differenceSortingKeys (row_old_data row_new_data : Row)
    (sorting_columns_index : List Nat) : Bool :=
  sorting_columns_index.any
    (fun i => decide (row_old_data.getD i .null ≠ row_new_data.getD i .null))

/-- The `writeable_rows_mask` built by `onUpdateData`: for every
consecutive (pre, post) pair, the post-image's bit is `true` and the
pre-image's bit is `differenceSortingKeys pre post`. -/
def updateMask (rows_data : List Row) (sorting_columns_index : List Nat) : List Bool :=
  match rows_data with
  | pre :: post :: rest =>
    differenceSortingKeys pre post sorting_columns_index :: true ::
      updateMask rest sorting_columns_index
  | _ => []

/-- The sign/version entries appended by `onUpdateData`'s second loop,
driven by the pre-image mask bits: an unchanged pair appends `(1,
version)`, a changed pair appends `(-1, version)` then `(1, version)`. -/
def updateSignVersion (mask : List Bool) (version : Nat) : List Int × List Nat :=
  match mask with
  | changed :: _ :: rest =>
    let (s, v) := updateSignVersion rest version
    if !changed then (1 :: s, version :: v)
    else (-1 :: 1 :: s, version :: version :: v)
  | _ => ([], [])

/-- `onUpdateData(rows_data, buffer, version, sorting_columns_index)`:
reject an odd row sequence with `LOGICAL_ERROR` before touching the
buffer; otherwise write the masked rows to every user column and append
the pair-driven sign/version entries. -/
def onUpdateData (rows_data : List Row) (buffer : Block) (version : Nat)
    (sorting_columns_index : List Nat) : Except ErrorCode (Block × Nat) :=
  if rows_data.length % 2 ≠ 0 then .error .LOGICAL_ERROR
  else
    let prev_bytes := buffer.bytes
    let mask := updateMask rows_data sorting_columns_index
    match writeCols buffer.userCols rows_data mask 0 with
    | .error e => .error e
    | .ok cols' =>
      let (sApp, vApp) := updateSignVersion mask version
      let b' : Block := ⟨cols', buffer.signCol ++ sApp, buffer.versionCol ++ vApp⟩
      .ok (b', b'.bytes - prev_bytes)

/-- One entry of `Buffers::data`: the buffer block and the precomputed
positions of the sorting-key columns
(`BufferAndSortingColumns = std::pair<Block, std::vector<size_t>>`). -/
abbrev BufferAndSortingColumns := Block × List Nat

/-- `MaterializeMySQLSyncThread::Buffers`: the per-table blocks (the
`std::unordered_map` is modelled as an association list) and the four
accounting counters. -/
structure Buffers where
  data : List (String × BufferAndSortingColumns)
  max_block_rows : Nat
  max_block_bytes : Nat
  total_blocks_rows : Nat
  total_blocks_bytes : Nat
deriving DecidableEq

/-- First-match association-list lookup (`data.find(table_name)`). -/
def lookupTable (data : List (String × BufferAndSortingColumns)) (t : String) :
    Option BufferAndSortingColumns :=
  match data with
  | [] => none
  | (t', e) :: rest => if t' = t then some e else lookupTable rest t

/-- Replace the entry of table `t` (the C++ mutates the mapped value in
place through the shared pointer); appends if absent, which never
happens after `getTableDataBuffer` ensured presence. -/
def setBuffer (data : List (String × BufferAndSortingColumns)) (t : String)
    (e : BufferAndSortingColumns) : List (String × BufferAndSortingColumns) :=
  match data with
  | [] => [(t, e)]
  | (t', e') :: rest => if t' = t then (t, e) :: rest else (t', e') :: setBuffer rest t e

/-- `Buffers::add(block_rows, block_bytes, written_rows, written_bytes)`. -/
def Buffers.add (b : Buffers) (block_rows block_bytes written_rows written_bytes : Nat) :
    Buffers :=
  { b with
    total_blocks_rows := b.total_blocks_rows + written_rows
    total_blocks_bytes := b.total_blocks_bytes + written_bytes
    max_block_rows := max block_rows b.max_block_rows
    max_block_bytes := max block_bytes b.max_block_bytes }

/-- `Buffers::checkThresholds`. -/
def Buffers.checkThresholds (b : Buffers)
    (check_block_rows check_block_bytes check_total_rows check_total_bytes : Nat) : Bool :=
  b.max_block_rows ≥ check_block_rows || b.max_block_bytes ≥ check_block_bytes ||
    b.total_blocks_rows ≥ check_total_rows || b.total_blocks_bytes ≥ check_total_bytes

/-- The schema information `getTableDataBuffer` queries from the target
store on a cache miss: the table's empty sample block
(`metadata.getSampleBlock()`) and the positions of the columns required
for the sorting key. -/
abbrev Catalog := String → Block × List Nat

/-- `Buffers::getTableDataBuffer(table_name, context)`: return the cached
entry, or materialize it from the catalog. -/
def Buffers.getTableDataBuffer (b : Buffers) (catalog : Catalog) (table_name : String) :
    BufferAndSortingColumns × Buffers :=
  match lookupTable b.data table_name with
  | some e => (e, b)
  | none =>
    let e := catalog table_name
    (e, { b with data := b.data ++ [(table_name, e)] })

/-- One insert sink opened by `Buffers::commit`:
`getTableOutput(database, table, query_context, true)` followed by
`copyData` of the block; `insert_materialized = true` makes the sink
include the materialized `_sign`/`_version` trailer columns. -/
structure InsertAct where
  table : String
  block : Block
  insert_materialized : Bool
deriving DecidableEq

/-- The `for (auto & table_name_and_buffer : data)` loop of
`Buffers::commit` with an oracle giving each table's insert outcome:
record each attempted insert, stop at the first failure. -/
def commitLoop (data : List (String × BufferAndSortingColumns))
    (insertOutcome : String → Option ErrorCode) : List InsertAct × Option ErrorCode :=
  match data with
  | [] => ([], none)
  | (t, e) :: rest =>
    let act : InsertAct := ⟨t, e.1, true⟩
    match insertOutcome t with
    | some err => ([act], some err)
    | none =>
      let (acts, err) := commitLoop rest insertOutcome
      (act :: acts, err)

/-- `Buffers::commit(context)`: insert every buffer (with materialized
columns), then clear the map and zero the four counters; on any failure
the `catch` clears the map only and rethrows. -/
def Buffers.commit (b : Buffers) (insertOutcome : String → Option ErrorCode) :
    List InsertAct × Buffers × Option ErrorCode :=
  match commitLoop b.data insertOutcome with
  | (acts, none) => (acts, ⟨[], 0, 0, 0, 0⟩, none)
  | (acts, some e) => (acts, { b with data := [] }, some e)

/-- A parsed binlog event as routed by `onEvent` (spec §3 "Event"). -/
inductive BinlogEvent where
  | writeRows (table : String) (rows : List Row)
  | updateRows (table : String) (rows : List Row)
  | deleteRows (table : String) (rows : List Row)
  | query (schema : String) (query : String)
  | heartbeat
  | other
deriving DecidableEq

/-- The three row-event kinds (`WRITE_ROWS`, `UPDATE_ROWS`,
`DELETE_ROWS`). -/
def BinlogEvent.isRowEvent : BinlogEvent → Bool
  | .writeRows _ _ => true
  | .updateRows _ _ => true
  | .deleteRows _ _ => true
  | _ => false

/-- The sync thread's naming configuration: the target ClickHouse
database and the source MySQL database. -/
structure SyncConfig where
  database_name : String
  mysql_database_name : String
deriving DecidableEq

/-- The `query_prefix` built in the constructor
(`"EXTERNAL DDL FROM MySQL(" + db + ", " + mysql_db + ") "`;
`backQuoteIfNeed` quoting is omitted). -/
def queryPrefixOf (cfg : SyncConfig) : String :=
  "EXTERNAL DDL FROM MySQL(" ++ cfg.database_name ++ ", " ++ cfg.mysql_database_name ++ ") "

/-- An externally visible action of the sync thread: an insert sink fed
by the flush, the atomic metadata/position commit that wraps a
successful flush, or a DDL forwarded to `tryToExecuteQuery` (the query
text and the database the query context is scoped to, `""` meaning the
default scope). -/
inductive Action where
  | insert (a : InsertAct)
  | metadataCommit
  | execQuery (query : String) (database : String)
deriving DecidableEq

/-- `flushBuffersData(buffers, metadata)`:
`metadata.transaction(client.getPosition(), [&]() { buffers.commit(...); })`.
`MaterializeMetadata::transaction` lives in `MaterializeMetadata.cpp`,
which is not part of the sources; it is modelled from the spec (§4.2):
the new position is persisted atomically with the side effects of the
body, so a `metadataCommit` action follows the body's inserts exactly
when the body succeeded, and nothing is committed when it threw. -/
def flushBuffersData (insertOutcome : String → Option ErrorCode) (buffers : Buffers) :
    List Action × Buffers × Option ErrorCode :=
  match buffers.commit insertOutcome with
  | (acts, b', none) => (acts.map Action.insert ++ [Action.metadataCommit], b', none)
  | (acts, b', some e) => (acts.map Action.insert, b', some e)

/-- The outcome of one `onEvent` call: the external actions it emitted,
the buffer set and version counter it left behind, and the exception it
propagated, if any. -/
structure EventResult where
  actions : List Action
  buffers : Buffers
  version : Nat
  err : Option ErrorCode
deriving DecidableEq

/-- `MaterializeMySQLSyncThread::onEvent(buffers, receive_event,
metadata)`.  `insertOutcome` is the oracle for the insert sinks a flush
opens; `ddlOutcome` is the oracle for `tryToExecuteQuery` on a query
event (`none` = success).  Note: the three row branches evaluate
`++metadata.version` before calling into the writer, so the version is
incremented even when the writer throws. -/
def onEvent (cfg : SyncConfig) (catalog : Catalog)
    (insertOutcome : String → Option ErrorCode) (ddlOutcome : Option ErrorCode)
    (buffers : Buffers) (receive_event : BinlogEvent) (version : Nat) : EventResult :=
  match receive_event with
  | .writeRows table rows =>
    let (entry, b1) := buffers.getTableDataBuffer catalog table
    let version' := version + 1
    match onWriteOrDeleteData 1 rows entry.1 version' with
    | .error e => ⟨[], b1, version', some e⟩
    | .ok (blk', bytes) =>
      let b2 := { b1 with data := setBuffer b1.data table (blk', entry.2) }
      ⟨[], b2.add blk'.rows blk'.bytes rows.length bytes, version', none⟩
  | .updateRows table rows =>
    let (entry, b1) := buffers.getTableDataBuffer catalog table
    let version' := version + 1
    match onUpdateData rows entry.1 version' entry.2 with
    | .error e => ⟨[], b1, version', some e⟩
    | .ok (blk', bytes) =>
      let b2 := { b1 with data := setBuffer b1.data table (blk', entry.2) }
      ⟨[], b2.add blk'.rows blk'.bytes rows.length bytes, version', none⟩
  | .deleteRows table rows =>
    let (entry, b1) := buffers.getTableDataBuffer catalog table
    let version' := version + 1
    match onWriteOrDeleteData (-1) rows entry.1 version' with
    | .error e => ⟨[], b1, version', some e⟩
    | .ok (blk', bytes) =>
      let b2 := { b1 with data := setBuffer b1.data table (blk', entry.2) }
      ⟨[], b2.add blk'.rows blk'.bytes rows.length bytes, version', none⟩
  | .query schema q =>
    match flushBuffersData insertOutcome buffers with
    | (facts, b', some e) => ⟨facts, b', version, some e⟩
    | (facts, b', none) =>
      let event_database := if schema = cfg.mysql_database_name then cfg.database_name else ""
      let acts := facts ++ [Action.execQuery (queryPrefixOf cfg ++ q) event_database]
      match ddlOutcome with
      | none => ⟨acts, b', version, none⟩
      | some e =>
        if e = .SYNTAX_ERROR then ⟨acts, b', version, none⟩ else ⟨acts, b', version, some e⟩
  | .heartbeat => ⟨[], buffers, version, none⟩
  | .other => ⟨[], buffers, version, none⟩

/-- Apply a sequence of events in order, stopping at the first
propagated exception (the sync loop exits on an uncaught throw). -/
def applyEvents (cfg : SyncConfig) (catalog : Catalog)
    (insertOutcome : String → Option ErrorCode) (ddlOutcome : Option ErrorCode) :
    List BinlogEvent → Buffers → Nat → EventResult
  | [], b, v => ⟨[], b, v, none⟩
  | e :: es, b, v =>
    let r := onEvent cfg catalog insertOutcome ddlOutcome b e v
    match r.err with
    | some _ => r
    | none =>
      let r' := applyEvents cfg catalog insertOutcome ddlOutcome es r.buffers r.version
      ⟨r.actions ++ r'.actions, r'.buffers, r'.version, r'.err⟩

/-- The buffer set right after construction or a successful flush. -/
def freshBuffers : Buffers := ⟨[], 0, 0, 0, 0⟩

/-- The deadline `synchronization` passes to
`client.readOneBinlogEvent`:
`std::max(UInt64(1), max_flush_time - watch.elapsedMilliseconds())`,
where the subtraction is on `UInt64` and therefore wraps modulo `2^64`. -/
def readOneBinlogEventDeadline (max_flush_time elapsed_ms : Nat) : Nat :=
  max 1 ((max_flush_time % 2 ^ 64 + (2 ^ 64 - elapsed_ms % 2 ^ 64)) % 2 ^ 64)

/-- Modelled from the spec: `deadline = max(1ms, max_flush_time − (now()
− watch))` read over the mathematical integers, the formula in §4.6's
pseudo-loop.  Compared against `readOneBinlogEventDeadline`, the
embedding of the code's unsigned computation. -/
def specDeadline (max_flush_time elapsed_ms : Nat) : Int :=
  max 1 ((max_flush_time : Int) - (elapsed_ms : Int))

/-- The four MySQL variables whose values the preflight check requires
(`log_bin = ON`, `binlog_format = ROW`, `binlog_row_image = FULL`,
`default_authentication_plugin = mysql_native_password`). -/
inductive MySQLVar where
  | log_bin
  | binlog_format
  | binlog_row_image
  | default_authentication_plugin
deriving DecidableEq, Fintype

/-- The key set of the `variables_error_message` map, in declaration
order. -/
def allMySQLVars : List MySQLVar :=
  [.log_bin, .binlog_format, .binlog_row_image, .default_authentication_plugin]

/-- The two ways `checkVariableAndGetVersion` can throw. -/
inductive PreflightError where
  /-- `variables_block.getByName("Variable_name")` throws
  column-not-found: when no variable matched, `read()` returned a
  default-constructed `Block` with no columns (the `!variables_block`
  half of the guard), and the error-message branch reads the column
  before building its message. -/
  | notFoundColumnInBlock
  /-- The `ILLEGAL_MYSQL_VARIABLE` exception carrying the unmet
  requirements (the C++ joins the remaining map messages in
  `std::unordered_map` order, so only the set is specified; the model
  keeps the list of unmet variables, in `allMySQLVars` order). -/
  | illegalMySQLVariable (unmet : List MySQLVar)
deriving DecidableEq

/-- `checkVariableAndGetVersion(connection)`.  The `SHOW VARIABLES`
query's `WHERE` clause returns one row per variable whose value already
satisfies the requirement, so the input is the list of satisfied
variables.  If all 4 rows come back the server version string is
returned.  Otherwise the error branch is entered
(`!variables_block || rows() != 4`): with zero rows `read()` produced a
column-less empty `Block`, so `getByName("Variable_name")` throws
column-not-found before the `ILLEGAL_MYSQL_VARIABLE` message is built;
with 1-3 rows the map of per-variable requirement messages minus the
returned names is thrown as `ILLEGAL_MYSQL_VARIABLE`. -/
def checkVariableAndGetVersion (query_result : List MySQLVar) (version_str : String) :
    Except PreflightError String :=
  if query_result.length ≠ 4 then
    if query_result.isEmpty then .error .notFoundColumnInBlock
    else .error (.illegalMySQLVariable
      (allMySQLVars.filter (fun v => decide (v ∉ query_result))))
  else .ok version_str

/-! ### Derived definitions used to state the claims -/

/-- The consecutive (pre, post) pairs of an even-length update row
sequence (spec §3: even indices are pre-images, odd are post-images). -/
def toPairs : List Row → List (Row × Row)
  | pre :: post :: rest => (pre, post) :: toPairs rest
  | _ => []

/-- Interleave a pair list back into a row sequence. -/
def flattenPairs : List (Row × Row) → List Row
  | [] => []
  | (pre, post) :: rest => pre :: post :: flattenPairs rest

/-- Sum of the row counts of all per-table buffers. -/
def rowsSum (data : List (String × BufferAndSortingColumns)) : Nat :=
  (data.map (fun p => p.2.1.rows)).sum

/-- Maximum row count over the per-table buffers (0 when none). -/
def maxRowsOf : List (String × BufferAndSortingColumns) → Nat
  | [] => 0
  | p :: rest => max p.2.1.rows (maxRowsOf rest)

/-- Number of (pre, post) pairs of an update row sequence whose
sorting-key columns are all unchanged. -/
def unchangedPairsCount (sorting : List Nat) : List Row → Nat
  | pre :: post :: rest =>
    (if differenceSortingKeys pre post sorting then 0 else 1) +
      unchangedPairsCount sorting rest
  | _ => 0

/-- The gap one event introduces between `total_blocks_rows` and the
rows actually appended: update pairs with unchanged sorting key append
one row but are accounted as two. -/
def eventSlack (catalog : Catalog) : BinlogEvent → Nat
  | .updateRows t rows => unchangedPairsCount ((catalog t).2) rows
  | _ => 0

/-- Accumulated accounting gap over a sequence of events. -/
def slackOf (catalog : Catalog) (events : List BinlogEvent) : Nat :=
  (events.map (eventSlack catalog)).sum

/-- The invariant relating the accounting counters to the buffer
contents: `total_blocks_rows` exceeds the buffered rows by the
accumulated slack, `max_block_rows` is the running maximum, and every
cached sorting-index vector is the catalog's. -/
def AccountingInv (catalog : Catalog) (b : Buffers) (slack : Nat) : Prop :=
  b.total_blocks_rows = rowsSum b.data + slack ∧
  b.max_block_rows = maxRowsOf b.data ∧
  ∀ p ∈ b.data, p.2.2 = (catalog p.1).2

/-! ### Concrete inputs for scenarios, counterexamples and witnesses -/

/-- A target schema with one table shape: user columns `(k : UInt64,
v : String)`, sorting key `k` (column 0), empty sample block. -/
def twoColCatalog : Catalog := fun _ =>
  (⟨[⟨.uint64, []⟩, ⟨.string, []⟩], [], []⟩, [0])

/-- The row `{k = 5, v = "a"}` of spec §8 scenario 1. -/
def rowK5a : Row := [.uint 5, .str "a"]

/-- The post-image `{k = 6, v = "a"}` of a sorting-key-changing update. -/
def rowK6a : Row := [.uint 6, .str "a"]

/-- A concrete naming configuration. -/
def cfgEx : SyncConfig := ⟨"db", "mysql_db"⟩

/-- Insert oracle where every insert sink succeeds. -/
def allInsertsOk : String → Option ErrorCode := fun _ => none

/-- Insert oracle where every insert sink fails with a generic error. -/
def allInsertsFail : String → Option ErrorCode := fun _ => some .OTHER

/-- A buffer set holding one buffered row and nonzero counters, as left
behind by an applied write event. -/
def bufEx : Buffers := ⟨[("t", (⟨[⟨.uint64, [.uint 5]⟩], [1], [1]⟩, [0]))], 3, 4, 5, 6⟩

/-- The post-state claim C3 makes about a Write/Delete row event on
table `t`: the version counter was bumped to `ver`, and the table's
buffer gained one row per event row — every user column got the
converted field of each row in order, and the sign/version trailers got
`sign` and `ver` once per row. -/
def RowAppendSpec (catalog : Catalog) (b : Buffers) (t : String) (rows : List Row)
    (sign : Int) (ver : Nat) (r : EventResult) : Prop :=
  r.version = ver ∧
  ∃ blk',
    lookupTable r.buffers.data t = some (blk', (b.getTableDataBuffer catalog t).1.2) ∧
    blk'.signCol =
      (b.getTableDataBuffer catalog t).1.1.signCol ++ List.replicate rows.length sign ∧
    blk'.versionCol =
      (b.getTableDataBuffer catalog t).1.1.versionCol ++ List.replicate rows.length ver ∧
    blk'.rows = (b.getTableDataBuffer catalog t).1.1.rows + rows.length ∧
    blk'.userCols.length = (b.getTableDataBuffer catalog t).1.1.userCols.length ∧
    ∀ ci col, (b.getTableDataBuffer catalog t).1.1.userCols[ci]? = some col → ∃ cells,
      mapMExcept (fun row => convCell col.kind (row.getD ci .null)) rows = .ok cells ∧
      cells.length = rows.length ∧
      blk'.userCols[ci]? = some ⟨col.kind, col.data ++ cells⟩

/-! ### Supporting lemmas -/

theorem mapMExcept_ok_length {α β : Type} (f : α → Except ErrorCode β) :
    ∀ (l : List α) (l' : List β), mapMExcept f l = .ok l' → l'.length = l.length := by
  intro l
  induction l with
  | nil =>
    intro l' h
    simp only [mapMExcept, Except.ok.injEq] at h
    simp [← h]
  | cons a as ih =>
    intro l' h
    simp only [mapMExcept] at h
    cases hfa : f a with
    | error e => exact Except.noConfusion (hfa ▸ h)
    | ok b =>
      simp only [hfa] at h
      cases hrec : mapMExcept f as with
      | error e => exact Except.noConfusion (hrec ▸ h)
      | ok bs =>
        simp only [hrec, Except.ok.injEq] at h
        subst h
        simp [ih bs hrec]

theorem selectedRows_nil_mask : ∀ rows : List Row, selectedRows rows [] = rows := by
  intro rows
  induction rows with
  | nil => rfl
  | cons r rs ih => simp [selectedRows, ih]

theorem writeFieldsToColumn_ok {col col' : Column} {rows_data : List Row}
    {column_index : Nat} {mask : List Bool}
    (h : writeFieldsToColumn col rows_data column_index mask = .ok col') :
    ∃ cells,
      mapMExcept (fun r => convCell col.kind (r.getD column_index .null))
          (selectedRows rows_data mask) = .ok cells ∧
      col' = ⟨col.kind, col.data ++ cells⟩ := by
  simp only [writeFieldsToColumn] at h
  cases hm : mapMExcept (fun r => convCell col.kind (r.getD column_index .null))
      (selectedRows rows_data mask) with
  | error e => exact Except.noConfusion (hm ▸ h)
  | ok cells =>
    simp only [hm, Except.ok.injEq] at h
    exact ⟨cells, rfl, h.symm⟩

theorem writeCols_ok : ∀ (cols : List Column) (cols' : List Column) (rows_data : List Row)
    (mask : List Bool) (start : Nat),
    writeCols cols rows_data mask start = .ok cols' →
    cols'.length = cols.length ∧
    ∀ j col, cols[j]? = some col → ∃ cells,
      mapMExcept (fun r => convCell col.kind (r.getD (start + j) .null))
          (selectedRows rows_data mask) = .ok cells ∧
      cols'[j]? = some ⟨col.kind, col.data ++ cells⟩ := by
  intro cols
  induction cols with
  | nil =>
    intro cols' rows_data mask start h
    simp only [writeCols, Except.ok.injEq] at h
    subst h
    exact ⟨rfl, by intro j col hj; simp at hj⟩
  | cons c cs ih =>
    intro cols' rows_data mask start h
    simp only [writeCols] at h
    cases hc : writeFieldsToColumn c rows_data start mask with
    | error e => exact Except.noConfusion (hc ▸ h)
    | ok c' =>
      simp only [hc] at h
      cases hcs : writeCols cs rows_data mask (start + 1) with
      | error e => exact Except.noConfusion (hcs ▸ h)
      | ok cs' =>
        simp only [hcs, Except.ok.injEq] at h
        subst h
        obtain ⟨hlen, hcol⟩ := ih cs' rows_data mask (start + 1) hcs
        refine ⟨by simp [hlen], ?_⟩
        intro j col hj
        cases j with
        | zero =>
          simp only [List.getElem?_cons_zero, Option.some.injEq] at hj
          subst hj
          obtain ⟨cells, hcells, hcol'⟩ := writeFieldsToColumn_ok hc
          exact ⟨cells, by simpa using hcells, by simp [hcol']⟩
        | succ j' =>
          simp only [List.getElem?_cons_succ] at hj
          obtain ⟨cells, hcells, hget⟩ := hcol j' col hj
          refine ⟨cells, ?_, by simpa using hget⟩
          have : start + 1 + j' = start + (j' + 1) := by omega
          rw [← this]
          exact hcells

theorem flattenPairs_length : ∀ pairs : List (Row × Row),
    (flattenPairs pairs).length = 2 * pairs.length := by
  intro pairs
  induction pairs with
  | nil => rfl
  | cons pq rest ih =>
    obtain ⟨pre, post⟩ := pq
    simp [flattenPairs, ih]
    omega

theorem flattenPairs_toPairs : ∀ rows : List Row, rows.length % 2 = 0 →
    flattenPairs (toPairs rows) = rows
  | [], _ => rfl
  | [x], h => by simp at h
  | pre :: post :: rest, h => by
    have hrest : rest.length % 2 = 0 := by
      simp only [List.length_cons] at h
      omega
    simp [toPairs, flattenPairs, flattenPairs_toPairs rest hrest]

theorem updateMask_flattenPairs (sorting : List Nat) : ∀ pairs : List (Row × Row),
    updateMask (flattenPairs pairs) sorting =
      pairs.flatMap (fun pq => [differenceSortingKeys pq.1 pq.2 sorting, true]) := by
  intro pairs
  induction pairs with
  | nil => rfl
  | cons pq rest ih =>
    obtain ⟨pre, post⟩ := pq
    simp [flattenPairs, updateMask, ih]

theorem selectedRows_updateMask (sorting : List Nat) : ∀ pairs : List (Row × Row),
    selectedRows (flattenPairs pairs) (updateMask (flattenPairs pairs) sorting) =
      pairs.flatMap (fun pq =>
        if differenceSortingKeys pq.1 pq.2 sorting then [pq.1, pq.2] else [pq.2]) := by
  intro pairs
  induction pairs with
  | nil => rfl
  | cons pq rest ih =>
    obtain ⟨pre, post⟩ := pq
    by_cases hd : differenceSortingKeys pre post sorting <;>
      simp [flattenPairs, updateMask, selectedRows, hd, ih]

theorem updateSignVersion_flattenPairs (sorting : List Nat) (version : Nat) :
    ∀ pairs : List (Row × Row),
    updateSignVersion (updateMask (flattenPairs pairs) sorting) version =
      (pairs.flatMap (fun pq =>
          if differenceSortingKeys pq.1 pq.2 sorting then [-1, 1] else [1]),
       pairs.flatMap (fun pq =>
          if differenceSortingKeys pq.1 pq.2 sorting then [version, version] else [version])) := by
  intro pairs
  induction pairs with
  | nil => rfl
  | cons pq rest ih =>
    obtain ⟨pre, post⟩ := pq
    by_cases hd : differenceSortingKeys pre post sorting <;>
      simp [flattenPairs, updateMask, updateSignVersion, hd, ih]

theorem unchangedPairsCount_flattenPairs (sorting : List Nat) : ∀ pairs : List (Row × Row),
    unchangedPairsCount sorting (flattenPairs pairs) =
      (pairs.map (fun pq =>
        if differenceSortingKeys pq.1 pq.2 sorting then 0 else 1)).sum := by
  intro pairs
  induction pairs with
  | nil => rfl
  | cons pq rest ih =>
    obtain ⟨pre, post⟩ := pq
    simp [flattenPairs, unchangedPairsCount, ih]

theorem signEntries_length_add_unchanged (sorting : List Nat) : ∀ pairs : List (Row × Row),
    (pairs.flatMap (fun pq =>
        if differenceSortingKeys pq.1 pq.2 sorting then [(-1 : Int), 1] else [1])).length +
      (pairs.map (fun pq =>
        if differenceSortingKeys pq.1 pq.2 sorting then 0 else 1)).sum = 2 * pairs.length := by
  intro pairs
  induction pairs with
  | nil => rfl
  | cons pq rest ih =>
    by_cases hd : differenceSortingKeys pq.1 pq.2 sorting <;> simp [hd] at ih ⊢ <;> omega

theorem updateSignVersion_length_add_unchanged (sorting : List Nat) (version : Nat)
    (rows : List Row) (heven : rows.length % 2 = 0) :
    ((updateSignVersion (updateMask rows sorting) version).1).length +
      unchangedPairsCount sorting rows = rows.length := by
  conv_lhs => rw [← flattenPairs_toPairs rows heven]
  conv_rhs => rw [← flattenPairs_toPairs rows heven]
  rw [updateSignVersion_flattenPairs, unchangedPairsCount_flattenPairs, flattenPairs_length]
  exact signEntries_length_add_unchanged sorting (toPairs rows)

theorem onWriteOrDeleteData_ok {sign : Int} {rows_data : List Row} {buffer blk' : Block}
    {version : Nat} {bytes : Nat}
    (h : onWriteOrDeleteData sign rows_data buffer version = .ok (blk', bytes)) :
    blk'.signCol = buffer.signCol ++ List.replicate rows_data.length sign ∧
    blk'.versionCol = buffer.versionCol ++ List.replicate rows_data.length version ∧
    blk'.rows = buffer.rows + rows_data.length ∧
    blk'.userCols.length = buffer.userCols.length ∧
    ∀ ci col, buffer.userCols[ci]? = some col → ∃ cells,
      mapMExcept (fun r => convCell col.kind (r.getD ci .null)) rows_data = .ok cells ∧
      blk'.userCols[ci]? = some ⟨col.kind, col.data ++ cells⟩ := by
  simp only [onWriteOrDeleteData] at h
  cases hw : writeCols buffer.userCols rows_data [] 0 with
  | error e => exact Except.noConfusion (hw ▸ h)
  | ok cols' =>
    rw [hw] at h
    simp only [fillSignAndVersionColumnsData, Except.ok.injEq, Prod.mk.injEq] at h
    obtain ⟨hb, _⟩ := h
    obtain ⟨hlen, hcol⟩ := writeCols_ok buffer.userCols cols' rows_data [] 0 hw
    subst hb
    refine ⟨rfl, rfl, ?_, by simpa using hlen, ?_⟩
    · simp [Block.rows]
    · intro ci col hci
      obtain ⟨cells, hcells, hget⟩ := hcol ci col hci
      rw [selectedRows_nil_mask] at hcells
      exact ⟨cells, by simpa using hcells, by simpa using hget⟩

theorem onUpdateData_ok {rows_data : List Row} {buffer blk' : Block} {version : Nat}
    {sorting : List Nat} {bytes : Nat}
    (h : onUpdateData rows_data buffer version sorting = .ok (blk', bytes)) :
    rows_data.length % 2 = 0 ∧
    blk'.signCol = buffer.signCol ++ (updateSignVersion (updateMask rows_data sorting) version).1 ∧
    blk'.versionCol =
      buffer.versionCol ++ (updateSignVersion (updateMask rows_data sorting) version).2 ∧
    blk'.rows + unchangedPairsCount sorting rows_data = buffer.rows + rows_data.length ∧
    blk'.userCols.length = buffer.userCols.length ∧
    ∀ ci col, buffer.userCols[ci]? = some col → ∃ cells,
      mapMExcept (fun r => convCell col.kind (r.getD ci .null))
          (selectedRows rows_data (updateMask rows_data sorting)) = .ok cells ∧
      blk'.userCols[ci]? = some ⟨col.kind, col.data ++ cells⟩ := by
  simp only [onUpdateData] at h
  by_cases heven : rows_data.length % 2 = 0
  · simp only [heven] at h
    simp only [if_neg (by omega : ¬ (0 : Nat) ≠ 0)] at h
    cases hw : writeCols buffer.userCols rows_data (updateMask rows_data sorting) 0 with
    | error e => exact Except.noConfusion (hw ▸ h)
    | ok cols' =>
      rw [hw] at h
      simp only [Except.ok.injEq, Prod.mk.injEq] at h
      obtain ⟨hb, _⟩ := h
      obtain ⟨hlen, hcol⟩ := writeCols_ok buffer.userCols cols' rows_data
        (updateMask rows_data sorting) 0 hw
      subst hb
      refine ⟨heven, rfl, rfl, ?_, by simpa using hlen, ?_⟩
      · simp only [Block.rows, List.length_append]
        have := updateSignVersion_length_add_unchanged sorting version rows_data heven
        omega
      · intro ci col hci
        obtain ⟨cells, hcells, hget⟩ := hcol ci col hci
        exact ⟨cells, by simpa using hcells, by simpa using hget⟩
  · exfalso
    rw [if_pos heven] at h
    exact Except.noConfusion h

theorem lookupTable_append_of_some {data : List (String × BufferAndSortingColumns)}
    {t' : String} {e : BufferAndSortingColumns} (x : String × BufferAndSortingColumns)
    (h : lookupTable data t' = some e) : lookupTable (data ++ [x]) t' = some e := by
  induction data with
  | nil => simp [lookupTable] at h
  | cons p rest ih =>
    simp only [lookupTable, List.cons_append] at h ⊢
    by_cases hp : p.1 = t'
    · rw [if_pos hp] at h ⊢; exact h
    · rw [if_neg hp] at h ⊢; exact ih h

theorem lookupTable_append_of_none {data : List (String × BufferAndSortingColumns)}
    {t : String} (e : BufferAndSortingColumns)
    (h : lookupTable data t = none) : lookupTable (data ++ [(t, e)]) t = some e := by
  induction data with
  | nil => simp [lookupTable]
  | cons p rest ih =>
    simp only [lookupTable, List.cons_append] at h ⊢
    by_cases hp : p.1 = t
    · rw [if_pos hp] at h; exact absurd h (by simp)
    · rw [if_neg hp] at h ⊢; exact ih h

theorem lookupTable_mem {t : String} {e : BufferAndSortingColumns} :
    ∀ {data : List (String × BufferAndSortingColumns)},
    lookupTable data t = some e → (t, e) ∈ data := by
  intro data
  induction data with
  | nil => intro h; simp [lookupTable] at h
  | cons p rest ih =>
    intro h
    obtain ⟨tp, ep⟩ := p
    simp only [lookupTable] at h
    by_cases hp : tp = t
    · rw [if_pos hp] at h
      simp only [Option.some.injEq] at h
      subst hp
      subst h
      exact List.mem_cons_self _ _
    · rw [if_neg hp] at h
      exact List.mem_cons_of_mem _ (ih h)

theorem lookupTable_setBuffer_self (data : List (String × BufferAndSortingColumns))
    (t : String) (e : BufferAndSortingColumns) :
    lookupTable (setBuffer data t e) t = some e := by
  induction data with
  | nil => simp [setBuffer, lookupTable]
  | cons p rest ih =>
    simp only [setBuffer]
    by_cases hp : p.1 = t
    · rw [if_pos hp]; simp [lookupTable]
    · rw [if_neg hp]
      simp only [lookupTable, if_neg hp]
      exact ih

theorem getTableDataBuffer_hit {b : Buffers} (catalog : Catalog) {t : String}
    {e : BufferAndSortingColumns} (h : lookupTable b.data t = some e) :
    b.getTableDataBuffer catalog t = (e, b) := by
  simp [Buffers.getTableDataBuffer, h]

theorem getTableDataBuffer_miss {b : Buffers} (catalog : Catalog) {t : String}
    (h : lookupTable b.data t = none) :
    b.getTableDataBuffer catalog t =
      (catalog t, { b with data := b.data ++ [(t, catalog t)] }) := by
  simp [Buffers.getTableDataBuffer, h]

theorem rowsSum_append (data : List (String × BufferAndSortingColumns))
    (x : String × BufferAndSortingColumns) :
    rowsSum (data ++ [x]) = rowsSum data + x.2.1.rows := by
  simp [rowsSum]

theorem maxRowsOf_append (data : List (String × BufferAndSortingColumns))
    (x : String × BufferAndSortingColumns) :
    maxRowsOf (data ++ [x]) = max (maxRowsOf data) x.2.1.rows := by
  induction data with
  | nil => simp [maxRowsOf]
  | cons p rest ih =>
    simp only [List.cons_append, maxRowsOf, List.append_eq]
    rw [ih]
    omega

theorem rowsSum_setBuffer {t : String} {blk : Block} {si : List Nat}
    (blk' : Block) (si' : List Nat) :
    ∀ {data : List (String × BufferAndSortingColumns)},
    lookupTable data t = some (blk, si) →
    rowsSum (setBuffer data t (blk', si')) + blk.rows = rowsSum data + blk'.rows := by
  intro data
  induction data with
  | nil => intro h; simp [lookupTable] at h
  | cons p rest ih =>
    intro h
    obtain ⟨tp, ep⟩ := p
    simp only [lookupTable] at h
    simp only [setBuffer]
    by_cases hp : tp = t
    · rw [if_pos hp] at h
      simp only [Option.some.injEq] at h
      rw [if_pos hp]
      subst h
      simp only [rowsSum, List.map_cons, List.sum_cons]
      omega
    · rw [if_neg hp] at h
      rw [if_neg hp]
      have hrec := ih h
      simp only [rowsSum, List.map_cons, List.sum_cons] at hrec ⊢
      omega

theorem maxRowsOf_setBuffer {t : String} {blk : Block} {si : List Nat}
    (blk' : Block) (si' : List Nat) (hle : blk.rows ≤ blk'.rows) :
    ∀ {data : List (String × BufferAndSortingColumns)},
    lookupTable data t = some (blk, si) →
    maxRowsOf (setBuffer data t (blk', si')) = max blk'.rows (maxRowsOf data) := by
  intro data
  induction data with
  | nil => intro h; simp [lookupTable] at h
  | cons p rest ih =>
    intro h
    obtain ⟨tp, ep⟩ := p
    simp only [lookupTable] at h
    simp only [setBuffer]
    by_cases hp : tp = t
    · rw [if_pos hp] at h
      simp only [Option.some.injEq] at h
      rw [if_pos hp]
      subst h
      simp only [maxRowsOf]
      omega
    · rw [if_neg hp] at h
      rw [if_neg hp]
      simp only [maxRowsOf]
      rw [ih h]
      omega

theorem setBuffer_preserves {t : String} {e : BufferAndSortingColumns}
    {P : String × BufferAndSortingColumns → Prop} (hnew : P (t, e)) :
    ∀ data : List (String × BufferAndSortingColumns),
    (∀ p ∈ data, P p) → ∀ p ∈ setBuffer data t e, P p := by
  intro data
  induction data with
  | nil =>
    intro _ p hp
    simp only [setBuffer, List.mem_singleton] at hp
    exact hp ▸ hnew
  | cons q rest ih =>
    intro hall p hp
    simp only [setBuffer] at hp
    by_cases hq : q.1 = t
    · rw [if_pos hq] at hp
      rcases List.mem_cons.mp hp with h1 | h2
      · exact h1 ▸ hnew
      · exact hall p (List.mem_cons_of_mem _ h2)
    · rw [if_neg hq] at hp
      rcases List.mem_cons.mp hp with h1 | h2
      · exact h1 ▸ hall q (List.mem_cons_self _ _)
      · exact ih (fun r hr => hall r (List.mem_cons_of_mem _ hr)) p h2

theorem commitLoop_all_ok {insertOutcome : String → Option ErrorCode}
    (hok : ∀ t, insertOutcome t = none) :
    ∀ data : List (String × BufferAndSortingColumns),
    commitLoop data insertOutcome = (data.map (fun p => ⟨p.1, p.2.1, true⟩), none) := by
  intro data
  induction data with
  | nil => rfl
  | cons p rest ih =>
    simp only [commitLoop, hok p.1, ih, List.map_cons]

theorem pat32_toSigned32 {p : Nat} (hp : p < 2 ^ 32) : pat32 (toSigned 32 p) = p := by
  unfold toSigned pat32
  rw [Nat.mod_eq_of_lt hp]
  split
  · omega
  · omega

theorem lor_FF000000_of_lt {n : Nat} (hn : n < 2 ^ 24) :
    n ||| 0xFF000000 = 0xFF000000 + n := by
  have h1 : 2 ^ 24 * 255 + n = 2 ^ 24 * 255 ||| n := Nat.mul_add_lt_is_or hn 255
  have h2 : (2 : Nat) ^ 24 * 255 = 0xFF000000 := by norm_num
  rw [Nat.lor_comm]
  rw [← h2, ← h1]

/-! ### Claim theorems -/

/-- Claim C2 (code bug, evaluated at the failing input): with
`max_flush_data_time = 1000` ms and 1001 ms elapsed since the last
flush, the deadline the code passes to the event read is `2^64 - 1` ms,
not the 1 ms the claim (and the spec formula over the integers)
requires: the `UInt64` subtraction wraps before `std::max` is applied. -/
theorem c2_deadline_unsigned_wrap :
    readOneBinlogEventDeadline 1000 1001 = 2 ^ 64 - 1 ∧
    readOneBinlogEventDeadline 1000 1001 ≠ 1 ∧
    specDeadline 1000 1001 = 1 := by
  refine ⟨by decide, ?_, by decide⟩
  intro h
  have : readOneBinlogEventDeadline 1000 1001 = 2 ^ 64 - 1 := by decide
  omega

/-- Claim C8: writing a 64-bit signed source field into a signed 32-bit
column sign-extends from 24 bits — the value is truncated to its 32-bit
pattern, and if bit 23 of that pattern is set the pattern is OR-ed with
`0xFF000000`, otherwise left unchanged; consequently every 24-bit
pattern materializes as its 24-bit two's-complement value, `0x800000`
materializes as the `i32` pattern `0xFF800000` = −8388608, `0x000001` as
+1, and an unsigned-64 source field is truncated to its low 32 bits
without sign extension. -/
theorem c8_mediumint_sign_extension :
    (∀ v : Int, ∃ r : Int, convCell .int32 (.int v) = .ok (.int r) ∧
      pat32 r = (if Nat.testBit (bitsOfField (.int v) % 2 ^ 32) 23
                 then (bitsOfField (.int v) % 2 ^ 32) ||| 0xFF000000
                 else bitsOfField (.int v) % 2 ^ 32)) ∧
    (∀ n : Nat, n < 2 ^ 24 → convCell .int32 (.int (n : Int)) = .ok (.int (toSigned 24 n))) ∧
    convCell .int32 (.int 0x800000) = .ok (.int (-8388608)) ∧
    pat32 (-8388608) = 0xFF800000 ∧
    convCell .int32 (.int 1) = .ok (.int 1) ∧
    (∀ u : Nat, ∃ r : Int, convCell .int32 (.uint u) = .ok (.int r) ∧
      pat32 r = u % 2 ^ 32) := by
  have h32 : (0xFF000000 : Nat) < 2 ^ 32 := by norm_num
  refine ⟨?_, ?_, by decide, by decide, by decide, ?_⟩
  · intro v
    refine ⟨int32FromSigned64 v, rfl, ?_⟩
    simp only [int32FromSigned64, bitsOfField]
    have hlt : (v % (2 ^ 64 : Int)).toNat % 2 ^ 32 < 2 ^ 32 :=
      Nat.mod_lt _ (by norm_num)
    split
    · exact pat32_toSigned32 (Nat.or_lt_two_pow hlt h32)
    · exact pat32_toSigned32 hlt
  · intro n hn
    simp only [convCell, Except.ok.injEq, Field.int.injEq]
    simp only [int32FromSigned64]
    have h64 : ((n : Int) % (2 ^ 64 : Int)).toNat = n := by
      have : (n : Int) % (2 ^ 64 : Int) = (n : Int) := by
        apply Int.emod_eq_of_lt (by positivity)
        exact_mod_cast lt_trans hn (by norm_num)
      rw [this]
      exact Int.toNat_natCast n
    have h32n : n % 2 ^ 32 = n := Nat.mod_eq_of_lt (lt_trans hn (by norm_num))
    rw [h64, h32n]
    by_cases h23 : n < 2 ^ 23
    · rw [Nat.testBit_lt_two_pow h23]
      simp only [Bool.false_eq_true, if_false]
      unfold toSigned
      rw [Nat.mod_eq_of_lt (lt_trans hn (by norm_num)),
        Nat.mod_eq_of_lt (lt_trans h23 (by norm_num))]
      rw [if_pos (by norm_num at h23 ⊢; omega), if_pos (by norm_num at h23 ⊢; omega)]
    · have htb : Nat.testBit n 23 = true := by
        rw [Nat.testBit_to_div_mod]
        have : n / 2 ^ 23 = 1 := by
          norm_num at h23 hn ⊢
          omega
        rw [this]
        decide
      rw [htb]
      simp only [if_true]
      rw [lor_FF000000_of_lt hn]
      unfold toSigned
      have e1 : (0xFF000000 + n) % 2 ^ 32 = 0xFF000000 + n :=
        Nat.mod_eq_of_lt (by norm_num at hn ⊢; omega)
      have e2 : n % 2 ^ 24 = n := Nat.mod_eq_of_lt hn
      rw [e1, e2]
      rw [if_neg (by norm_num at hn ⊢; omega), if_neg (by norm_num at h23 ⊢; omega)]
      push_cast
      omega
  · intro u
    refine ⟨toSigned 32 (u % 2 ^ 32), rfl, pat32_toSigned32 (Nat.mod_lt _ (by norm_num))⟩

/-- Witness for C8: the 24-bit pattern 5 materializes as `toSigned 24 5`. -/
theorem c8_mediumint_sign_extension_witness :
    (5 : Nat) < 2 ^ 24 ∧ convCell .int32 (.int ((5 : Nat) : Int)) = .ok (.int (toSigned 24 5)) :=
  ⟨by norm_num, c8_mediumint_sign_extension.2.1 5 (by norm_num)⟩

/-- Counterexample for C9 as stated: with no satisfied variable the
check does not fail listing the (four) unmet requirements — the query
result is a column-less empty block, and `getByName("Variable_name")`
throws column-not-found before the `ILLEGAL_MYSQL_VARIABLE` message is
built. -/
theorem c9_counterexample :
    checkVariableAndGetVersion [] "8.0.21" = .error .notFoundColumnInBlock ∧
    checkVariableAndGetVersion [] "8.0.21" ≠
      .error (.illegalMySQLVariable allMySQLVars) := by
  decide

/-- Claim C9 (amended): the preflight check returns the server version
string exactly when all four required variables are satisfied; when at
least one but not all are satisfied it fails with
`ILLEGAL_MYSQL_VARIABLE` listing exactly the unmet requirements; but —
contrary to the claim — when none are satisfied the result block has no
columns and reading the `Variable_name` column throws column-not-found
before the requirement-listing error is built, so no unmet list is
reported in that case. -/
theorem c9_preflight_check_amended (query_result : List MySQLVar)
    (h : query_result.Nodup) (version_str : String) :
    (checkVariableAndGetVersion query_result version_str = .ok version_str ↔
      ∀ v : MySQLVar, v ∈ query_result) ∧
    (query_result = [] →
      checkVariableAndGetVersion query_result version_str =
        .error .notFoundColumnInBlock) ∧
    (query_result ≠ [] → ¬ (∀ v : MySQLVar, v ∈ query_result) →
      checkVariableAndGetVersion query_result version_str =
        .error (.illegalMySQLVariable
          (allMySQLVars.filter (fun v => decide (v ∉ query_result))))) ∧
    (∀ unmet, checkVariableAndGetVersion query_result version_str =
        .error (.illegalMySQLVariable unmet) →
      query_result ≠ [] ∧ ∀ v : MySQLVar, (v ∈ unmet ↔ v ∉ query_result)) := by
  have hcard : query_result.length = 4 ↔ ∀ v : MySQLVar, v ∈ query_result := by
    constructor
    · intro hlen v
      have h1 : query_result.toFinset.card = 4 := by
        rw [List.toFinset_card_of_nodup h, hlen]
      have h2 : query_result.toFinset = Finset.univ :=
        Finset.eq_univ_of_card _ (by rw [h1]; decide)
      rw [← List.mem_toFinset, h2]
      exact Finset.mem_univ v
    · intro hall
      have h1 : query_result.toFinset = Finset.univ :=
        Finset.eq_univ_iff_forall.mpr (fun v => List.mem_toFinset.mpr (hall v))
      have h2 : query_result.length = query_result.toFinset.card :=
        (List.toFinset_card_of_nodup h).symm
      rw [h2, h1]
      decide
  refine ⟨?_, ?_, ?_, ?_⟩
  · unfold checkVariableAndGetVersion
    by_cases hlen : query_result.length = 4
    · rw [if_neg (by omega)]
      simp only [iff_true_intro (hcard.mp hlen)]
    · rw [if_pos (by omega)]
      by_cases hemp : query_result.isEmpty
      · rw [if_pos hemp]
        constructor
        · intro he
          exact absurd he (by simp)
        · intro hall
          exact absurd (hcard.mpr hall) hlen
      · rw [if_neg hemp]
        constructor
        · intro he
          exact absurd he (by simp)
        · intro hall
          exact absurd (hcard.mpr hall) hlen
  · intro hnil
    subst hnil
    rfl
  · intro hne hnall
    have hlen : query_result.length ≠ 4 := fun hl => hnall (hcard.mp hl)
    have hemp : ¬ query_result.isEmpty := by
      cases query_result with
      | nil => exact absurd rfl hne
      | cons a l => simp [List.isEmpty]
    unfold checkVariableAndGetVersion
    rw [if_pos hlen, if_neg hemp]
  · intro unmet herr
    unfold checkVariableAndGetVersion at herr
    by_cases hlen : query_result.length = 4
    · rw [if_neg (by omega)] at herr
      exact absurd herr (by simp)
    · rw [if_pos (by omega)] at herr
      by_cases hemp : query_result.isEmpty
      · rw [if_pos hemp] at herr
        simp only [Except.error.injEq] at herr
        exact PreflightError.noConfusion herr
      · rw [if_neg hemp] at herr
        simp only [Except.error.injEq, PreflightError.illegalMySQLVariable.injEq] at herr
        subst herr
        refine ⟨?_, ?_⟩
        · intro hnil
          subst hnil
          exact hemp (by simp)
        · intro v
          rw [List.mem_filter]
          simp only [decide_eq_true_eq]
          constructor
          · rintro ⟨_, hv⟩
            exact hv
          · intro hv
            exact ⟨by cases v <;> simp [allMySQLVars], hv⟩

/-- Witness for C9 (amended): with only `log_bin` satisfied the check
fails listing exactly the other three requirements. -/
theorem c9_preflight_check_amended_witness :
    checkVariableAndGetVersion [MySQLVar.log_bin] "8.0.21" =
      .error (.illegalMySQLVariable
        [MySQLVar.binlog_format, MySQLVar.binlog_row_image,
         MySQLVar.default_authentication_plugin]) := by
  have hmain := (c9_preflight_check_amended [MySQLVar.log_bin] (by decide) "8.0.21").2.2.1
    (by decide) (by decide)
  exact hmain.trans (by decide)

/-- Claim C4: the version counter is incremented exactly once per
Write/Update/Delete row event (regardless of its row count — the
`++metadata.version` at the call site is evaluated once, even when the
writer throws afterwards), and no other event type (Query, Heartbeat,
Other) changes it. -/
theorem c4_version_increment (cfg : SyncConfig) (catalog : Catalog)
    (insertOutcome : String → Option ErrorCode) (ddlOutcome : Option ErrorCode)
    (b : Buffers) (ev : BinlogEvent) (v : Nat) :
    (onEvent cfg catalog insertOutcome ddlOutcome b ev v).version =
      (if ev.isRowEvent then v + 1 else v) := by
  cases ev with
  | writeRows t rows =>
    rcases hg : b.getTableDataBuffer catalog t with ⟨entry, b1⟩
    simp only [onEvent, hg, BinlogEvent.isRowEvent, if_true]
    cases hw : onWriteOrDeleteData 1 rows entry.1 (v + 1) with
    | error e => simp [hw]
    | ok pr => obtain ⟨blk', bytes⟩ := pr; simp [hw]
  | updateRows t rows =>
    rcases hg : b.getTableDataBuffer catalog t with ⟨entry, b1⟩
    simp only [onEvent, hg, BinlogEvent.isRowEvent, if_true]
    cases hw : onUpdateData rows entry.1 (v + 1) entry.2 with
    | error e => simp [hw]
    | ok pr => obtain ⟨blk', bytes⟩ := pr; simp [hw]
  | deleteRows t rows =>
    rcases hg : b.getTableDataBuffer catalog t with ⟨entry, b1⟩
    simp only [onEvent, hg, BinlogEvent.isRowEvent, if_true]
    cases hw : onWriteOrDeleteData (-1) rows entry.1 (v + 1) with
    | error e => simp [hw]
    | ok pr => obtain ⟨blk', bytes⟩ := pr; simp [hw]
  | query schema q =>
    rcases hf : flushBuffersData insertOutcome b with ⟨facts, b', ferr⟩
    simp only [onEvent, hf, BinlogEvent.isRowEvent, if_false]
    cases ferr with
    | some e => simp
    | none =>
      cases ddlOutcome with
      | none => simp
      | some e =>
        by_cases he : e = ErrorCode.SYNTAX_ERROR <;> simp [he]
  | heartbeat => simp [onEvent, BinlogEvent.isRowEvent]
  | other => simp [onEvent, BinlogEvent.isRowEvent]

/-- Claim C10: an update event with an odd row sequence is rejected with
`LOGICAL_ERROR` before any buffer column is written: every pre-existing
buffer entry is unchanged and the four accounting counters keep their
values (only the lazily created empty entry for the event's table may
have been added by `getTableDataBuffer`). -/
theorem c10_odd_update_rejected (cfg : SyncConfig) (catalog : Catalog)
    (insertOutcome : String → Option ErrorCode) (ddlOutcome : Option ErrorCode)
    (b : Buffers) (t : String) (rows : List Row) (v : Nat)
    (hodd : rows.length % 2 = 1) :
    (onEvent cfg catalog insertOutcome ddlOutcome b (.updateRows t rows) v).err =
      some .LOGICAL_ERROR ∧
    (onEvent cfg catalog insertOutcome ddlOutcome b (.updateRows t rows) v).buffers.data =
      ((b.getTableDataBuffer catalog t).2).data ∧
    (∀ t' e, lookupTable b.data t' = some e →
      lookupTable
        (onEvent cfg catalog insertOutcome ddlOutcome b (.updateRows t rows) v).buffers.data
        t' = some e) ∧
    (onEvent cfg catalog insertOutcome ddlOutcome b (.updateRows t rows) v).buffers.max_block_rows
      = b.max_block_rows ∧
    (onEvent cfg catalog insertOutcome ddlOutcome b (.updateRows t rows) v).buffers.max_block_bytes
      = b.max_block_bytes ∧
    (onEvent cfg catalog insertOutcome ddlOutcome b
      (.updateRows t rows) v).buffers.total_blocks_rows = b.total_blocks_rows ∧
    (onEvent cfg catalog insertOutcome ddlOutcome b
      (.updateRows t rows) v).buffers.total_blocks_bytes = b.total_blocks_bytes := by
  have hu : ∀ (blk : Block) (si : List Nat),
      onUpdateData rows blk (v + 1) si = .error .LOGICAL_ERROR := by
    intro blk si
    unfold onUpdateData
    rw [if_pos (by omega)]
  cases hl : lookupTable b.data t with
  | some e0 =>
    have hg := getTableDataBuffer_hit catalog hl
    have hr : onEvent cfg catalog insertOutcome ddlOutcome b (.updateRows t rows) v =
        ⟨[], b, v + 1, some .LOGICAL_ERROR⟩ := by
      simp only [onEvent, hg, hu]
    rw [hr, hg]
    exact ⟨rfl, rfl, fun t' e he => he, rfl, rfl, rfl, rfl⟩
  | none =>
    have hg := getTableDataBuffer_miss catalog hl
    have hr : onEvent cfg catalog insertOutcome ddlOutcome b (.updateRows t rows) v =
        ⟨[], { b with data := b.data ++ [(t, catalog t)] }, v + 1, some .LOGICAL_ERROR⟩ := by
      simp only [onEvent, hg, hu]
    rw [hr, hg]
    refine ⟨rfl, rfl, ?_, rfl, rfl, rfl, rfl⟩
    exact fun t' e he => lookupTable_append_of_some _ he

/-- Witness for C10: a one-row update event is rejected with the buffer
set's counters untouched. -/
theorem c10_odd_update_rejected_witness :
    (1 : Nat) % 2 = 1 ∧
    (onEvent cfgEx twoColCatalog allInsertsOk none bufEx
      (.updateRows "t" [rowK5a]) 0).err = some .LOGICAL_ERROR ∧
    (onEvent cfgEx twoColCatalog allInsertsOk none bufEx
      (.updateRows "t" [rowK5a]) 0).buffers.total_blocks_rows = bufEx.total_blocks_rows := by
  have h := c10_odd_update_rejected cfgEx twoColCatalog allInsertsOk none bufEx "t" [rowK5a] 0
    (by decide)
  exact ⟨by decide, h.1, h.2.2.2.2.2.1⟩

theorem commitLoop_ok_acts {insertOutcome : String → Option ErrorCode} :
    ∀ (data : List (String × BufferAndSortingColumns)) (acts : List InsertAct),
    commitLoop data insertOutcome = (acts, none) →
    acts = data.map (fun p => ⟨p.1, p.2.1, true⟩) := by
  intro data
  induction data with
  | nil =>
    intro acts h
    simp only [commitLoop, Prod.mk.injEq] at h
    simp [← h.1]
  | cons p rest ih =>
    intro acts h
    simp only [commitLoop] at h
    cases hoc : insertOutcome p.1 with
    | some e =>
      rw [hoc] at h
      simp only [Prod.mk.injEq] at h
      exact absurd h.2 (by simp)
    | none =>
      rw [hoc] at h
      rcases hrec : commitLoop rest insertOutcome with ⟨acts', err'⟩
      rw [hrec] at h
      simp only [Prod.mk.injEq] at h
      obtain ⟨hacts, herr⟩ := h
      subst herr
      subst hacts
      simp [ih acts' hrec]

/-- Claim C6 (amended): `Buffers::commit` always clears the buffer map;
on success it has opened one insert sink per table, each including the
materialized sign/version columns, and it resets the four accounting
counters to zero; if an insert fails the map is still cleared before the
error propagates, but — contrary to the claim — the four counters are
NOT reset on the error path: they keep their values. -/
theorem c6_commit_amended (b : Buffers) (ins : String → Option ErrorCode) :
    ((b.commit ins).2.1).data = [] ∧
    ((b.commit ins).2.2 = none →
      (b.commit ins).1 = b.data.map (fun p => ⟨p.1, p.2.1, true⟩) ∧
      (∀ a ∈ (b.commit ins).1, a.insert_materialized = true) ∧
      (b.commit ins).2.1.max_block_rows = 0 ∧ (b.commit ins).2.1.max_block_bytes = 0 ∧
      (b.commit ins).2.1.total_blocks_rows = 0 ∧ (b.commit ins).2.1.total_blocks_bytes = 0) ∧
    (∀ e, (b.commit ins).2.2 = some e →
      (b.commit ins).2.1.max_block_rows = b.max_block_rows ∧
      (b.commit ins).2.1.max_block_bytes = b.max_block_bytes ∧
      (b.commit ins).2.1.total_blocks_rows = b.total_blocks_rows ∧
      (b.commit ins).2.1.total_blocks_bytes = b.total_blocks_bytes) := by
  unfold Buffers.commit
  rcases hcl : commitLoop b.data ins with ⟨acts, err⟩
  cases err with
  | none =>
    refine ⟨rfl, ?_, ?_⟩
    · intro _
      have hacts := commitLoop_ok_acts b.data acts hcl
      subst hacts
      refine ⟨rfl, ?_, rfl, rfl, rfl, rfl⟩
      intro a ha
      simp only [List.mem_map] at ha
      obtain ⟨p, _, hp⟩ := ha
      rw [← hp]
    · intro e he
      exact absurd he (by simp)
  | some e =>
    exact ⟨rfl, fun h => absurd h (by simp), fun e' _ => ⟨rfl, rfl, rfl, rfl⟩⟩

/-- Counterexample for C6 as stated: with one buffered table and a
failing insert sink, the flush clears the buffer map and propagates the
error, but `total_blocks_rows` is left at 5 — the counters are not
reset on the error path. -/
theorem c6_counterexample :
    (bufEx.commit allInsertsFail).2.2 = some .OTHER ∧
    (bufEx.commit allInsertsFail).2.1.data = [] ∧
    (bufEx.commit allInsertsFail).2.1.total_blocks_rows = 5 ∧
    ¬ ((bufEx.commit allInsertsFail).2.1.total_blocks_rows = 0) := by
  decide

/-- Witness for C6 (amended): a successful commit resets the counters
and clears the map. -/
theorem c6_commit_amended_witness :
    (bufEx.commit allInsertsOk).2.2 = none ∧
    (bufEx.commit allInsertsOk).2.1.total_blocks_rows = 0 ∧
    (bufEx.commit allInsertsOk).2.1.data = [] := by
  have h := c6_commit_amended bufEx allInsertsOk
  exact ⟨by decide, (h.2.1 (by decide)).2.2.2.2.1, h.1⟩

/-- Claim C7: a Query event first flushes the pending buffers (all
insert sinks, then the atomic metadata/position commit) and only then
executes the DDL; the DDL runs scoped to the target database iff the
event's schema equals the configured source database (otherwise in the
default scope); a `SYNTAX_ERROR` from the DDL is swallowed so the loop
continues, while any other error propagates.  (`Metadata.transaction`
itself is not in the sources and is modelled from spec §4.2 inside
`flushBuffersData`.) -/
theorem c7_query_event (cfg : SyncConfig) (catalog : Catalog)
    (ins : String → Option ErrorCode) (ddl : Option ErrorCode) (b : Buffers)
    (schema q : String) (v : Nat)
    (hins : ∀ t, ins t = none) (hdb : cfg.database_name ≠ "") :
    (onEvent cfg catalog ins ddl b (.query schema q) v).actions =
      (b.data.map (fun p => Action.insert ⟨p.1, p.2.1, true⟩)) ++
        [Action.metadataCommit,
         Action.execQuery (queryPrefixOf cfg ++ q)
           (if schema = cfg.mysql_database_name then cfg.database_name else "")] ∧
    ((if schema = cfg.mysql_database_name then cfg.database_name else "") = cfg.database_name
        ↔ schema = cfg.mysql_database_name) ∧
    (ddl = some .SYNTAX_ERROR → (onEvent cfg catalog ins ddl b (.query schema q) v).err = none) ∧
    (∀ e, ddl = some e → e ≠ .SYNTAX_ERROR →
      (onEvent cfg catalog ins ddl b (.query schema q) v).err = some e) ∧
    (ddl = none → (onEvent cfg catalog ins ddl b (.query schema q) v).err = none) ∧
    (onEvent cfg catalog ins ddl b (.query schema q) v).buffers.data = [] ∧
    (onEvent cfg catalog ins ddl b (.query schema q) v).version = v := by
  have hcommit : b.commit ins =
      (b.data.map (fun p => ⟨p.1, p.2.1, true⟩), (⟨[], 0, 0, 0, 0⟩ : Buffers), none) := by
    unfold Buffers.commit
    rw [commitLoop_all_ok hins]
  have hflush : flushBuffersData ins b =
      ((b.data.map (fun p => ⟨p.1, p.2.1, true⟩)).map Action.insert ++ [Action.metadataCommit],
       (⟨[], 0, 0, 0, 0⟩ : Buffers), none) := by
    unfold flushBuffersData
    rw [hcommit]
  have hiff : ((if schema = cfg.mysql_database_name then cfg.database_name else "") =
      cfg.database_name ↔ schema = cfg.mysql_database_name) := by
    by_cases hs : schema = cfg.mysql_database_name
    · simp [hs]
    · simp only [if_neg hs, iff_false_intro hs, iff_false]
      intro hcontra
      exact hdb hcontra.symm
  refine ⟨?_, hiff, ?_, ?_, ?_, ?_, ?_⟩
  · simp only [onEvent, hflush]
    cases ddl with
    | none => simp
    | some e =>
      by_cases he : e = ErrorCode.SYNTAX_ERROR <;> simp [he]
  · intro hddl
    subst hddl
    simp [onEvent, hflush]
  · intro e hddl hne
    subst hddl
    simp [onEvent, hflush, hne]
  · intro hddl
    subst hddl
    simp [onEvent, hflush]
  · simp only [onEvent, hflush]
    cases ddl with
    | none => simp
    | some e =>
      by_cases he : e = ErrorCode.SYNTAX_ERROR <;> simp [he]
  · simp only [onEvent, hflush]
    cases ddl with
    | none => simp
    | some e =>
      by_cases he : e = ErrorCode.SYNTAX_ERROR <;> simp [he]

/-- Witness for C7: with all inserts succeeding and the DDL raising a
syntax error, the error is swallowed and the buffers are flushed and
cleared before the DDL action. -/
theorem c7_query_event_witness :
    (onEvent cfgEx twoColCatalog allInsertsOk (some .SYNTAX_ERROR) bufEx
      (.query "mysql_db" "CREATE TABLE x") 0).err = none ∧
    (onEvent cfgEx twoColCatalog allInsertsOk (some .SYNTAX_ERROR) bufEx
      (.query "mysql_db" "CREATE TABLE x") 0).buffers.data = [] := by
  have h := c7_query_event cfgEx twoColCatalog allInsertsOk (some .SYNTAX_ERROR) bufEx
    "mysql_db" "CREATE TABLE x" 0 (fun _ => rfl) (by decide)
  exact ⟨h.2.2.1 rfl, h.2.2.2.2.2.1⟩

/-- Claim C3: a Write event with `n` rows appends `n` rows to the
table's buffer — each user column receives the converted corresponding
field of each row, and `+1` and the freshly incremented version are
appended once per row; a Delete event is identical with sign `-1`.
Consequently Write({k=5,v="a"}) then Delete({k=5,v="a"}) leaves the
buffer holding exactly the two rows `(5,"a",+1,V1)` and `(5,"a",-1,V2)`
with `V1 = 1`, `V2 = 2 = V1 + 1`. -/
theorem c3_write_delete_rows (cfg : SyncConfig) (catalog : Catalog)
    (ins : String → Option ErrorCode) (ddl : Option ErrorCode) :
    (∀ (b : Buffers) (t : String) (rows : List Row) (v : Nat),
      (onEvent cfg catalog ins ddl b (.writeRows t rows) v).err = none →
      RowAppendSpec catalog b t rows 1 (v + 1)
        (onEvent cfg catalog ins ddl b (.writeRows t rows) v)) ∧
    (∀ (b : Buffers) (t : String) (rows : List Row) (v : Nat),
      (onEvent cfg catalog ins ddl b (.deleteRows t rows) v).err = none →
      RowAppendSpec catalog b t rows (-1) (v + 1)
        (onEvent cfg catalog ins ddl b (.deleteRows t rows) v)) ∧
    (applyEvents cfgEx twoColCatalog allInsertsOk none
        [.writeRows "t" [rowK5a], .deleteRows "t" [rowK5a]] freshBuffers 0).buffers.data =
      [("t", (⟨[⟨.uint64, [.uint 5, .uint 5]⟩, ⟨.string, [.str "a", .str "a"]⟩],
        [1, -1], [1, 2]⟩, [0]))] ∧
    (applyEvents cfgEx twoColCatalog allInsertsOk none
        [.writeRows "t" [rowK5a], .deleteRows "t" [rowK5a]] freshBuffers 0).version = 2 := by
  refine ⟨?_, ?_, by decide, by decide⟩
  · intro b t rows v hok
    rcases hg : b.getTableDataBuffer catalog t with ⟨entry, b1⟩
    cases hw : onWriteOrDeleteData 1 rows entry.1 (v + 1) with
    | error e => simp [onEvent, hg, hw] at hok
    | ok pr =>
      obtain ⟨blk', bytes⟩ := pr
      have hr : onEvent cfg catalog ins ddl b (.writeRows t rows) v =
          ⟨[], Buffers.add { b1 with data := setBuffer b1.data t (blk', entry.2) }
            blk'.rows blk'.bytes rows.length bytes, v + 1, none⟩ := by
        simp only [onEvent, hg, hw]
      unfold RowAppendSpec
      rw [hr, hg]
      obtain ⟨hsign, hver, hrows, hulen, hucols⟩ := onWriteOrDeleteData_ok hw
      refine ⟨rfl, blk', lookupTable_setBuffer_self _ _ _, hsign, hver, hrows, hulen, ?_⟩
      intro ci col hci
      obtain ⟨cells, hcells, hget⟩ := hucols ci col hci
      exact ⟨cells, hcells, by rw [mapMExcept_ok_length _ rows cells hcells], hget⟩
  · intro b t rows v hok
    rcases hg : b.getTableDataBuffer catalog t with ⟨entry, b1⟩
    cases hw : onWriteOrDeleteData (-1) rows entry.1 (v + 1) with
    | error e => simp [onEvent, hg, hw] at hok
    | ok pr =>
      obtain ⟨blk', bytes⟩ := pr
      have hr : onEvent cfg catalog ins ddl b (.deleteRows t rows) v =
          ⟨[], Buffers.add { b1 with data := setBuffer b1.data t (blk', entry.2) }
            blk'.rows blk'.bytes rows.length bytes, v + 1, none⟩ := by
        simp only [onEvent, hg, hw]
      unfold RowAppendSpec
      rw [hr, hg]
      obtain ⟨hsign, hver, hrows, hulen, hucols⟩ := onWriteOrDeleteData_ok hw
      refine ⟨rfl, blk', lookupTable_setBuffer_self _ _ _, hsign, hver, hrows, hulen, ?_⟩
      intro ci col hci
      obtain ⟨cells, hcells, hget⟩ := hucols ci col hci
      exact ⟨cells, hcells, by rw [mapMExcept_ok_length _ rows cells hcells], hget⟩

/-- Witness for C3: the Write event of the insert-then-delete scenario
satisfies the append specification. -/
theorem c3_write_delete_rows_witness :
    (onEvent cfgEx twoColCatalog allInsertsOk none freshBuffers
      (.writeRows "t" [rowK5a]) 0).err = none ∧
    RowAppendSpec twoColCatalog freshBuffers "t" [rowK5a] 1 (0 + 1)
      (onEvent cfgEx twoColCatalog allInsertsOk none freshBuffers (.writeRows "t" [rowK5a]) 0) :=
  ⟨by decide, (c3_write_delete_rows cfgEx twoColCatalog allInsertsOk none).1
    freshBuffers "t" [rowK5a] 0 (by decide)⟩

/-- Claim C1: an update event made of consecutive (pre, post) pairs
appends, per pair, exactly the post-image with sign `+1` when no
sorting-key column differs, and exactly the pre-image with sign `-1`
followed by the post-image with sign `+1` when one does; every appended
row of the event carries the same version value, which is incremented
once per update event (not once per pair). -/
theorem c1_update_event (cfg : SyncConfig) (catalog : Catalog)
    (ins : String → Option ErrorCode) (ddl : Option ErrorCode)
    (b : Buffers) (t : String) (pairs : List (Row × Row)) (v : Nat)
    (hok : (onEvent cfg catalog ins ddl b (.updateRows t (flattenPairs pairs)) v).err = none) :
    (onEvent cfg catalog ins ddl b (.updateRows t (flattenPairs pairs)) v).version = v + 1 ∧
    ∃ blk',
      lookupTable
          (onEvent cfg catalog ins ddl b (.updateRows t (flattenPairs pairs)) v).buffers.data t =
        some (blk', (b.getTableDataBuffer catalog t).1.2) ∧
      blk'.signCol = (b.getTableDataBuffer catalog t).1.1.signCol ++
        pairs.flatMap (fun pq =>
          if differenceSortingKeys pq.1 pq.2 (b.getTableDataBuffer catalog t).1.2
          then [-1, 1] else [1]) ∧
      blk'.versionCol = (b.getTableDataBuffer catalog t).1.1.versionCol ++
        pairs.flatMap (fun pq =>
          if differenceSortingKeys pq.1 pq.2 (b.getTableDataBuffer catalog t).1.2
          then [v + 1, v + 1] else [v + 1]) ∧
      blk'.userCols.length = (b.getTableDataBuffer catalog t).1.1.userCols.length ∧
      ∀ ci col, (b.getTableDataBuffer catalog t).1.1.userCols[ci]? = some col → ∃ cells,
        mapMExcept (fun row => convCell col.kind (row.getD ci .null))
          (pairs.flatMap (fun pq =>
            if differenceSortingKeys pq.1 pq.2 (b.getTableDataBuffer catalog t).1.2
            then [pq.1, pq.2] else [pq.2])) = .ok cells ∧
        blk'.userCols[ci]? = some ⟨col.kind, col.data ++ cells⟩ := by
  rcases hg : b.getTableDataBuffer catalog t with ⟨entry, b1⟩
  cases hw : onUpdateData (flattenPairs pairs) entry.1 (v + 1) entry.2 with
  | error e => simp [onEvent, hg, hw] at hok
  | ok pr =>
    obtain ⟨blk', bytes⟩ := pr
    have hr : onEvent cfg catalog ins ddl b (.updateRows t (flattenPairs pairs)) v =
        ⟨[], Buffers.add { b1 with data := setBuffer b1.data t (blk', entry.2) }
          blk'.rows blk'.bytes (flattenPairs pairs).length bytes, v + 1, none⟩ := by
      simp only [onEvent, hg, hw]
    rw [hr]
    obtain ⟨heven, hsign, hver, hrows, hulen, hucols⟩ := onUpdateData_ok hw
    rw [updateSignVersion_flattenPairs] at hsign hver
    refine ⟨rfl, blk', lookupTable_setBuffer_self _ _ _, hsign, hver, hulen, ?_⟩
    intro ci col hci
    obtain ⟨cells, hcells, hget⟩ := hucols ci col hci
    rw [selectedRows_updateMask] at hcells
    exact ⟨cells, hcells, hget⟩

/-- Witness for C1: the sorting-key-changing update of spec §8
scenario 3 bumps the version once. -/
theorem c1_update_event_witness :
    (onEvent cfgEx twoColCatalog allInsertsOk none freshBuffers
      (.updateRows "t" (flattenPairs [(rowK5a, rowK6a)])) 0).version = 0 + 1 :=
  (c1_update_event cfgEx twoColCatalog allInsertsOk none freshBuffers "t"
    [(rowK5a, rowK6a)] 0 (by decide)).1

theorem unchangedPairsCount_le (sorting : List Nat) : ∀ rows : List Row,
    2 * unchangedPairsCount sorting rows ≤ rows.length
  | [] => by simp [unchangedPairsCount]
  | [x] => by simp [unchangedPairsCount]
  | pre :: post :: rest => by
    have hrec := unchangedPairsCount_le sorting rest
    by_cases hd : differenceSortingKeys pre post sorting <;>
      simp [unchangedPairsCount, hd] <;> omega

theorem onEvent_row_accounting (cfg : SyncConfig) (catalog : Catalog)
    (ins : String → Option ErrorCode) (ddl : Option ErrorCode)
    (b : Buffers) (ev : BinlogEvent) (v : Nat) (slack : Nat)
    (hrow : ev.isRowEvent = true)
    (hok : (onEvent cfg catalog ins ddl b ev v).err = none)
    (hcat : ∀ t, ((catalog t).1).rows = 0)
    (hinv : AccountingInv catalog b slack) :
    AccountingInv catalog (onEvent cfg catalog ins ddl b ev v).buffers
      (slack + eventSlack catalog ev) := by
  obtain ⟨htot, hmax, hsidx⟩ := hinv
  cases ev with
  | writeRows t rows =>
    cases hl : lookupTable b.data t with
    | some e0 =>
      obtain ⟨blk0, si0⟩ := e0
      have hg := getTableDataBuffer_hit catalog hl
      cases hw : onWriteOrDeleteData 1 rows blk0 (v + 1) with
      | error e => simp [onEvent, hg, hw] at hok
      | ok pr =>
        obtain ⟨blk', bytes⟩ := pr
        have hr : onEvent cfg catalog ins ddl b (.writeRows t rows) v =
            ⟨[], Buffers.add { b with data := setBuffer b.data t (blk', si0) }
              blk'.rows blk'.bytes rows.length bytes, v + 1, none⟩ := by
          simp only [onEvent, hg, hw]
        rw [hr]
        obtain ⟨_, _, hrows, _, _⟩ := onWriteOrDeleteData_ok hw
        have hsum := rowsSum_setBuffer blk' si0 hl
        have hm := maxRowsOf_setBuffer blk' si0 (by omega) hl
        have hsi0 : si0 = (catalog t).2 := hsidx (t, (blk0, si0)) (lookupTable_mem hl)
        refine ⟨?_, ?_, ?_⟩
        · simp only [Buffers.add, eventSlack]
          omega
        · simp only [Buffers.add, eventSlack]
          rw [hm, hmax]
        · simp only [Buffers.add]
          exact setBuffer_preserves hsi0 b.data hsidx
    | none =>
      have hg := getTableDataBuffer_miss catalog hl
      cases hw : onWriteOrDeleteData 1 rows (catalog t).1 (v + 1) with
      | error e => simp [onEvent, hg, hw] at hok
      | ok pr =>
        obtain ⟨blk', bytes⟩ := pr
        have hr : onEvent cfg catalog ins ddl b (.writeRows t rows) v =
            ⟨[], Buffers.add
              { b with data := setBuffer (b.data ++ [(t, catalog t)]) t (blk', (catalog t).2) }
              blk'.rows blk'.bytes rows.length bytes, v + 1, none⟩ := by
          simp only [onEvent, hg, hw]
        rw [hr]
        obtain ⟨_, _, hrows, _, _⟩ := onWriteOrDeleteData_ok hw
        have hl2 : lookupTable (b.data ++ [(t, catalog t)]) t = some (catalog t) :=
          lookupTable_append_of_none _ hl
        have hsum := rowsSum_setBuffer blk' (catalog t).2 hl2
        have hm := maxRowsOf_setBuffer blk' (catalog t).2 (by omega) hl2
        have hsum2 := rowsSum_append b.data (t, catalog t)
        have hm2 := maxRowsOf_append b.data (t, catalog t)
        dsimp only at hsum2 hm2
        have hc := hcat t
        have hall2 : ∀ p ∈ b.data ++ [(t, catalog t)], p.2.2 = (catalog p.1).2 := by
          intro p hp
          rcases List.mem_append.mp hp with h1 | h2
          · exact hsidx p h1
          · simp only [List.mem_singleton] at h2
            rw [h2]
        refine ⟨?_, ?_, ?_⟩
        · simp only [Buffers.add, eventSlack]
          omega
        · simp only [Buffers.add, eventSlack]
          rw [hm, hm2, hmax, hc]
          omega
        · simp only [Buffers.add]
          exact setBuffer_preserves (P := fun p => p.2.2 = (catalog p.1).2) rfl _ hall2
  | updateRows t rows =>
    cases hl : lookupTable b.data t with
    | some e0 =>
      obtain ⟨blk0, si0⟩ := e0
      have hg := getTableDataBuffer_hit catalog hl
      cases hw : onUpdateData rows blk0 (v + 1) si0 with
      | error e => simp [onEvent, hg, hw] at hok
      | ok pr =>
        obtain ⟨blk', bytes⟩ := pr
        have hr : onEvent cfg catalog ins ddl b (.updateRows t rows) v =
            ⟨[], Buffers.add { b with data := setBuffer b.data t (blk', si0) }
              blk'.rows blk'.bytes rows.length bytes, v + 1, none⟩ := by
          simp only [onEvent, hg, hw]
        rw [hr]
        obtain ⟨_, _, _, hrows, _, _⟩ := onUpdateData_ok hw
        have hle := unchangedPairsCount_le si0 rows
        have hsum := rowsSum_setBuffer blk' si0 hl
        have hm := maxRowsOf_setBuffer blk' si0 (by omega) hl
        have hsi0 : si0 = (catalog t).2 := hsidx (t, (blk0, si0)) (lookupTable_mem hl)
        refine ⟨?_, ?_, ?_⟩
        · simp only [Buffers.add, eventSlack]
          rw [← hsi0]
          omega
        · simp only [Buffers.add, eventSlack]
          rw [hm, hmax]
        · simp only [Buffers.add]
          exact setBuffer_preserves hsi0 b.data hsidx
    | none =>
      have hg := getTableDataBuffer_miss catalog hl
      cases hw : onUpdateData rows (catalog t).1 (v + 1) (catalog t).2 with
      | error e => simp [onEvent, hg, hw] at hok
      | ok pr =>
        obtain ⟨blk', bytes⟩ := pr
        have hr : onEvent cfg catalog ins ddl b (.updateRows t rows) v =
            ⟨[], Buffers.add
              { b with data := setBuffer (b.data ++ [(t, catalog t)]) t (blk', (catalog t).2) }
              blk'.rows blk'.bytes rows.length bytes, v + 1, none⟩ := by
          simp only [onEvent, hg, hw]
        rw [hr]
        obtain ⟨_, _, _, hrows, _, _⟩ := onUpdateData_ok hw
        have hle := unchangedPairsCount_le (catalog t).2 rows
        have hl2 : lookupTable (b.data ++ [(t, catalog t)]) t = some (catalog t) :=
          lookupTable_append_of_none _ hl
        have hsum := rowsSum_setBuffer blk' (catalog t).2 hl2
        have hm := maxRowsOf_setBuffer blk' (catalog t).2 (by omega) hl2
        have hsum2 := rowsSum_append b.data (t, catalog t)
        have hm2 := maxRowsOf_append b.data (t, catalog t)
        dsimp only at hsum2 hm2
        have hc := hcat t
        have hall2 : ∀ p ∈ b.data ++ [(t, catalog t)], p.2.2 = (catalog p.1).2 := by
          intro p hp
          rcases List.mem_append.mp hp with h1 | h2
          · exact hsidx p h1
          · simp only [List.mem_singleton] at h2
            rw [h2]
        refine ⟨?_, ?_, ?_⟩
        · simp only [Buffers.add, eventSlack]
          omega
        · simp only [Buffers.add, eventSlack]
          rw [hm, hm2, hmax, hc]
          omega
        · simp only [Buffers.add]
          exact setBuffer_preserves (P := fun p => p.2.2 = (catalog p.1).2) rfl _ hall2
  | deleteRows t rows =>
    cases hl : lookupTable b.data t with
    | some e0 =>
      obtain ⟨blk0, si0⟩ := e0
      have hg := getTableDataBuffer_hit catalog hl
      cases hw : onWriteOrDeleteData (-1) rows blk0 (v + 1) with
      | error e => simp [onEvent, hg, hw] at hok
      | ok pr =>
        obtain ⟨blk', bytes⟩ := pr
        have hr : onEvent cfg catalog ins ddl b (.deleteRows t rows) v =
            ⟨[], Buffers.add { b with data := setBuffer b.data t (blk', si0) }
              blk'.rows blk'.bytes rows.length bytes, v + 1, none⟩ := by
          simp only [onEvent, hg, hw]
        rw [hr]
        obtain ⟨_, _, hrows, _, _⟩ := onWriteOrDeleteData_ok hw
        have hsum := rowsSum_setBuffer blk' si0 hl
        have hm := maxRowsOf_setBuffer blk' si0 (by omega) hl
        have hsi0 : si0 = (catalog t).2 := hsidx (t, (blk0, si0)) (lookupTable_mem hl)
        refine ⟨?_, ?_, ?_⟩
        · simp only [Buffers.add, eventSlack]
          omega
        · simp only [Buffers.add, eventSlack]
          rw [hm, hmax]
        · simp only [Buffers.add]
          exact setBuffer_preserves hsi0 b.data hsidx
    | none =>
      have hg := getTableDataBuffer_miss catalog hl
      cases hw : onWriteOrDeleteData (-1) rows (catalog t).1 (v + 1) with
      | error e => simp [onEvent, hg, hw] at hok
      | ok pr =>
        obtain ⟨blk', bytes⟩ := pr
        have hr : onEvent cfg catalog ins ddl b (.deleteRows t rows) v =
            ⟨[], Buffers.add
              { b with data := setBuffer (b.data ++ [(t, catalog t)]) t (blk', (catalog t).2) }
              blk'.rows blk'.bytes rows.length bytes, v + 1, none⟩ := by
          simp only [onEvent, hg, hw]
        rw [hr]
        obtain ⟨_, _, hrows, _, _⟩ := onWriteOrDeleteData_ok hw
        have hl2 : lookupTable (b.data ++ [(t, catalog t)]) t = some (catalog t) :=
          lookupTable_append_of_none _ hl
        have hsum := rowsSum_setBuffer blk' (catalog t).2 hl2
        have hm := maxRowsOf_setBuffer blk' (catalog t).2 (by omega) hl2
        have hsum2 := rowsSum_append b.data (t, catalog t)
        have hm2 := maxRowsOf_append b.data (t, catalog t)
        dsimp only at hsum2 hm2
        have hc := hcat t
        have hall2 : ∀ p ∈ b.data ++ [(t, catalog t)], p.2.2 = (catalog p.1).2 := by
          intro p hp
          rcases List.mem_append.mp hp with h1 | h2
          · exact hsidx p h1
          · simp only [List.mem_singleton] at h2
            rw [h2]
        refine ⟨?_, ?_, ?_⟩
        · simp only [Buffers.add, eventSlack]
          omega
        · simp only [Buffers.add, eventSlack]
          rw [hm, hm2, hmax, hc]
          omega
        · simp only [Buffers.add]
          exact setBuffer_preserves (P := fun p => p.2.2 = (catalog p.1).2) rfl _ hall2
  | query schema q => simp [BinlogEvent.isRowEvent] at hrow
  | heartbeat => simp [BinlogEvent.isRowEvent] at hrow
  | other => simp [BinlogEvent.isRowEvent] at hrow

theorem applyEvents_accounting (cfg : SyncConfig) (catalog : Catalog)
    (ins : String → Option ErrorCode) (ddl : Option ErrorCode)
    (hcat : ∀ t, ((catalog t).1).rows = 0) :
    ∀ (events : List BinlogEvent) (b : Buffers) (v slack : Nat),
    (∀ e ∈ events, e.isRowEvent = true) →
    AccountingInv catalog b slack →
    (applyEvents cfg catalog ins ddl events b v).err = none →
    AccountingInv catalog (applyEvents cfg catalog ins ddl events b v).buffers
      (slack + slackOf catalog events) := by
  intro events
  induction events with
  | nil =>
    intro b v slack _ hinv _
    simpa [applyEvents, slackOf] using hinv
  | cons e es ih =>
    intro b v slack hrow hinv hok
    cases her : (onEvent cfg catalog ins ddl b e v).err with
    | some err =>
      exfalso
      simp only [applyEvents, her] at hok
      exact Option.noConfusion hok
    | none =>
      have hstep := onEvent_row_accounting cfg catalog ins ddl b e v slack
        (hrow e (List.mem_cons_self _ _)) her hcat hinv
      have happly : applyEvents cfg catalog ins ddl (e :: es) b v =
          ⟨(onEvent cfg catalog ins ddl b e v).actions ++
            (applyEvents cfg catalog ins ddl es (onEvent cfg catalog ins ddl b e v).buffers
              (onEvent cfg catalog ins ddl b e v).version).actions,
           (applyEvents cfg catalog ins ddl es (onEvent cfg catalog ins ddl b e v).buffers
              (onEvent cfg catalog ins ddl b e v).version).buffers,
           (applyEvents cfg catalog ins ddl es (onEvent cfg catalog ins ddl b e v).buffers
              (onEvent cfg catalog ins ddl b e v).version).version,
           (applyEvents cfg catalog ins ddl es (onEvent cfg catalog ins ddl b e v).buffers
              (onEvent cfg catalog ins ddl b e v).version).err⟩ := by
        simp only [applyEvents, her]
      have hok' : (applyEvents cfg catalog ins ddl es (onEvent cfg catalog ins ddl b e v).buffers
          (onEvent cfg catalog ins ddl b e v).version).err = none := by
        rw [happly] at hok
        exact hok
      have hrec := ih (onEvent cfg catalog ins ddl b e v).buffers
        (onEvent cfg catalog ins ddl b e v).version (slack + eventSlack catalog e)
        (fun e' he' => hrow e' (List.mem_cons_of_mem _ he')) hstep hok'
      rw [happly]
      have harith : slack + eventSlack catalog e + slackOf catalog es =
          slack + slackOf catalog (e :: es) := by
        simp only [slackOf, List.map_cons, List.sum_cons]
        omega
      rw [← harith]
      exact hrec

/-- Counterexample for C5 as stated: a single update event whose one
(pre, post) pair leaves the sorting key unchanged appends one row to the
buffer but adds the pre/post sequence length 2 to `total_blocks_rows`,
so the counter does not equal the sum of the buffers' row counts. -/
theorem c5_counterexample :
    (onEvent cfgEx twoColCatalog allInsertsOk none freshBuffers
      (.updateRows "t" [rowK5a, rowK5a]) 0).err = none ∧
    (onEvent cfgEx twoColCatalog allInsertsOk none freshBuffers
      (.updateRows "t" [rowK5a, rowK5a]) 0).buffers.total_blocks_rows = 2 ∧
    rowsSum (onEvent cfgEx twoColCatalog allInsertsOk none freshBuffers
      (.updateRows "t" [rowK5a, rowK5a]) 0).buffers.data = 1 ∧
    ¬ ((onEvent cfgEx twoColCatalog allInsertsOk none freshBuffers
      (.updateRows "t" [rowK5a, rowK5a]) 0).buffers.total_blocks_rows =
      rowsSum (onEvent cfgEx twoColCatalog allInsertsOk none freshBuffers
      (.updateRows "t" [rowK5a, rowK5a]) 0).buffers.data) := by
  decide

/-- Claim C5 (amended): after any sequence of applied row events starting
from a fresh buffer set, `total_blocks_rows` equals the sum of the row
counts of all per-table buffers plus one for every processed update pair
whose sorting key was unchanged (the code accounts the pre/post sequence
length, not the rows actually appended, so the counter overshoots by
exactly that slack and the claimed equality holds only when every update
pair changed its sorting key); `max_block_rows` equals the maximum row
count reached by any single table's buffer since the last flush. -/
theorem c5_accounting_amended (cfg : SyncConfig) (catalog : Catalog)
    (ins : String → Option ErrorCode) (ddl : Option ErrorCode)
    (events : List BinlogEvent) (v0 : Nat)
    (hrow : ∀ e ∈ events, e.isRowEvent = true)
    (hcat : ∀ t, ((catalog t).1).rows = 0)
    (hok : (applyEvents cfg catalog ins ddl events freshBuffers v0).err = none) :
    (applyEvents cfg catalog ins ddl events freshBuffers v0).buffers.total_blocks_rows =
      rowsSum (applyEvents cfg catalog ins ddl events freshBuffers v0).buffers.data +
        slackOf catalog events ∧
    (applyEvents cfg catalog ins ddl events freshBuffers v0).buffers.max_block_rows =
      maxRowsOf (applyEvents cfg catalog ins ddl events freshBuffers v0).buffers.data := by
  have hinv0 : AccountingInv catalog freshBuffers 0 := by
    refine ⟨rfl, rfl, ?_⟩
    intro p hp
    simp [freshBuffers] at hp
  have h := applyEvents_accounting cfg catalog ins ddl hcat events freshBuffers v0 0
    hrow hinv0 hok
  obtain ⟨h1, h2, _⟩ := h
  constructor
  · rw [h1]
    omega
  · exact h2

/-- Witness for C5 (amended): the unchanged-pair update leaves
`total_blocks_rows = 2` with one buffered row and slack 1. -/
theorem c5_accounting_amended_witness :
    (applyEvents cfgEx twoColCatalog allInsertsOk none
      [.updateRows "t" [rowK5a, rowK5a]] freshBuffers 0).buffers.total_blocks_rows =
      rowsSum (applyEvents cfgEx twoColCatalog allInsertsOk none
        [.updateRows "t" [rowK5a, rowK5a]] freshBuffers 0).buffers.data +
        slackOf twoColCatalog [.updateRows "t" [rowK5a, rowK5a]] :=
  (c5_accounting_amended cfgEx twoColCatalog allInsertsOk none
    [.updateRows "t" [rowK5a, rowK5a]] 0 (by decide) (fun _ => rfl) (by decide)).1

end MaterializeMySQL
